import Mathlib

/-!
Mini-Redis: the cache engine of `store.cpp`.

A shallow embedding of `KeyValueStore` (`include/store.h`, `src/store.cpp`).

* `std::unordered_map<std::string, Entry> data` is an association list; the
  iteration order of the map is the order of the list.
* `std::list<std::pair<std::string,std::string>> lru_order` is a list of nodes.
  A list iterator is the identity of a node: every node carries an `id`, and
  `Entry.lru_pos` stores such an id.  `next_id` is the allocator: a node made by
  `push_front` gets the id `next_id`.
* `Clock::now()` is an argument of every operation that reads the clock; a
  `TimePoint` is a tick count (nanoseconds) and time arithmetic is taken
  without overflow.
* An operation that reaches undefined behaviour of the C++ library
  (`back()` of an empty list, `splice`/`erase` through an iterator that is not a
  live node of the list) returns `none`.
* The mutex, the `running` flag and the reaper thread are not part of the state;
  one pass of the reaper's `for` loop is the operation `reaper_scan`.  The guard
  that each member function declares on the mutex is recorded in `lock_mode`.
* Of `server.cpp`, `parse` and one pass of the loop of `handle_client` are
  embedded; `std::stoi` returns a value or throws, and a thrown exception ends the
  pass without a response.
-/

namespace MiniRedis

/-- A reading of `std::chrono::steady_clock`, in ticks. -/
abbrev TimePoint := Int

/-- Ticks in one second: the clock period is one nanosecond. -/
def ticks_per_second : Int := 1000000000

/-- The struct `Entry` of `store.h`; `lru_pos` is the id of a node of `lru_order`. -/
structure Entry where
  value : String
  expires_at : Option TimePoint
  lru_pos : Nat
deriving DecidableEq, Repr

/-- One node of `lru_order`: its identity and the stored pair. -/
structure Node where
  id : Nat
  first : String
  second : String
deriving DecidableEq, Repr

/-- The data members of `KeyValueStore` that the operations read and write. -/
structure KeyValueStore where
  capacity : Int
  data : List (String × Entry)
  lru_order : List Node
  next_id : Nat
deriving DecidableEq, Repr

/-- The constructor `KeyValueStore(int cap)`: an empty map and an empty list. -/
def KeyValueStore.mk_empty (cap : Int) : KeyValueStore :=
  { capacity := cap, data := [], lru_order := [], next_id := 0 }

/-! ## The map `data` -/

/-- The lookup `data.find(key)`: the entry stored under `key`, if any. -/
def find : List (String × Entry) → String → Option Entry
  | [], _ => none
  | (k, e) :: rest, key => if k = key then some e else find rest key

/-- The call `data.erase(key)`: drop the element stored under `key`. -/
def erase_key (data : List (String × Entry)) (key : String) : List (String × Entry) :=
  data.filter (fun p => !decide (p.1 = key))

/-- In-place write through `data[key]` for a stored key. -/
def assign (data : List (String × Entry)) (key : String) (f : Entry → Entry) :
    List (String × Entry) :=
  data.map (fun p => if p.1 = key then (p.1, f p.2) else p)

/-! ## The list `lru_order` -/

/-- The call `lru_order.erase(pos)`: undefined when `pos` is no live node. -/
def list_erase (l : List Node) (pos : Nat) : Option (List Node) :=
  if l.any (fun n => decide (n.id = pos)) then
    some (l.filter (fun n => !decide (n.id = pos)))
  else none

/-- The call `lru_order.splice(lru_order.begin(), lru_order, pos)`: the node
`pos` becomes the first node; undefined when `pos` is no live node. -/
def list_splice_front (l : List Node) (pos : Nat) : Option (List Node) :=
  match l.find? (fun n => decide (n.id = pos)) with
  | none => none
  | some n => some (n :: l.filter (fun m => !decide (m.id = pos)))

/-! ## Private member functions -/

/-- The member `is_expired`: no expiry means never expired, else `now > expires_at`. -/
def is_expired (e : Entry) (now : TimePoint) : Bool :=
  match e.expires_at with
  | none => false
  | some t => decide (now > t)

/-- The member `move_to_front`: splice the node `data[key].lru_pos` to the front.
For a key that is not stored `data[key]` is a fresh entry with a singular
iterator, and the splice is undefined. -/
def move_to_front (s : KeyValueStore) (key : String) : Option KeyValueStore :=
  match find s.data key with
  | none => none
  | some e =>
    match list_splice_front s.lru_order e.lru_pos with
    | none => none
    | some l => some { s with lru_order := l }

/-- The member `evict_lru`: erase the key of the last node from `data`, then pop
the last node; undefined on an empty list. -/
def evict_lru (s : KeyValueStore) : Option KeyValueStore :=
  match s.lru_order.getLast? with
  | none => none
  | some lru =>
    some { s with data := erase_key s.data lru.first, lru_order := s.lru_order.dropLast }

/-- The `for` loop of `reaper_loop` over the elements of `data` still to visit:
`clk i` is what the clock reads at the `i`-th call of `is_expired`.  Returns the
elements that stay and the list `lru_order` after the erasures. -/
def reaper_visit (clk : Nat → TimePoint) :
    Nat → List (String × Entry) → List Node → Option (List (String × Entry) × List Node)
  | _, [], lru => some ([], lru)
  | i, (k, e) :: rest, lru =>
    if is_expired e (clk i) then
      match list_erase lru e.lru_pos with
      | none => none
      | some lru1 => reaper_visit clk (i + 1) rest lru1
    else
      match reaper_visit clk (i + 1) rest lru with
      | none => none
      | some (kept, lru1) => some ((k, e) :: kept, lru1)

/-- One pass of the body of `reaper_loop` (after the sleep, under the lock). -/
def reaper_scan (s : KeyValueStore) (clk : Nat → TimePoint) : Option KeyValueStore :=
  match reaper_visit clk 0 s.data s.lru_order with
  | none => none
  | some (kept, lru) => some { s with data := kept, lru_order := lru }

/-! ## Public member functions -/

/-- The absolute expiry computed at the top of `set`. -/
def expiry_of (now : TimePoint) (ttl_seconds : Option Int) : Option TimePoint :=
  match ttl_seconds with
  | none => none
  | some ttl => some (now + ttl * ticks_per_second)

/-- The member `set`. -/
def set (s : KeyValueStore) (now : TimePoint) (key val : String)
    (ttl_seconds : Option Int) : Option KeyValueStore :=
  let expires_at := expiry_of now ttl_seconds
  if (find s.data key).isSome then
    move_to_front
      { s with data := assign s.data key
                 (fun e => { e with value := val, expires_at := expires_at }) } key
  else
    match (if (s.data.length : Int) ≥ s.capacity then evict_lru s else some s) with
    | none => none
    | some s1 =>
      some { s1 with
        lru_order := { id := s1.next_id, first := key, second := val } :: s1.lru_order
        data := (key, { value := val, expires_at := expires_at, lru_pos := s1.next_id })
                  :: s1.data
        next_id := s1.next_id + 1 }

/-- The member `get`: the state afterwards and the returned optional value. -/
def get (s : KeyValueStore) (now : TimePoint) (key : String) :
    Option (KeyValueStore × Option String) :=
  match find s.data key with
  | none => some (s, none)
  | some e =>
    if is_expired e now then some (s, none)
    else
      match move_to_front s key with
      | none => none
      | some s1 => some (s1, some e.value)

/-- The member `del`. -/
def del (s : KeyValueStore) (key : String) : Option KeyValueStore :=
  match find s.data key with
  | none => some s
  | some e =>
    match list_erase s.lru_order e.lru_pos with
    | none => none
    | some l => some { s with lru_order := l, data := erase_key s.data key }

/-- The member `exists`: the state afterwards and the returned flag. -/
def «exists» (s : KeyValueStore) (now : TimePoint) (key : String) : KeyValueStore × Bool :=
  match find s.data key with
  | none => (s, false)
  | some e => if is_expired e now then (s, false) else (s, true)

/-! ## Sequences of operations -/

/-- A call of a public member function, or one pass of the reaper, with the
clock readings it sees. -/
inductive Op where
  | set (now : TimePoint) (key val : String) (ttl_seconds : Option Int)
  | get (now : TimePoint) (key : String)
  | del (key : String)
  | «exists» (now : TimePoint) (key : String)
  | reap (clk : Nat → TimePoint)

/-- The state after one operation. -/
def step (s : KeyValueStore) : Op → Option KeyValueStore
  | .set now key val ttl => set s now key val ttl
  | .get now key => (get s now key).map Prod.fst
  | .del key => del s key
  | .«exists» now key => some («exists» s now key).1
  | .reap clk => reaper_scan s clk

/-- The state after a sequence of operations, first operation first. -/
def run (s : KeyValueStore) : List Op → Option KeyValueStore
  | [] => some s
  | op :: ops =>
    match step s op with
    | none => none
    | some s1 => run s1 ops

/-! ## Well-formed states -/

/-- The keys of the recency order, most recently used first. -/
def lru_keys (s : KeyValueStore) : List String := s.lru_order.map Node.first

/-- The keys physically stored in `data`. -/
def stored_keys (s : KeyValueStore) : List String := s.data.map Prod.fst

/-- Well-formedness of the pair of containers: keys and node identities are
unique, every entry's iterator is a live node holding the entry's key, every node
holds a stored key, and the allocator is ahead of every live node. -/
structure WFc (data : List (String × Entry)) (lru : List Node) (next : Nat) : Prop where
  keys_nodup : (data.map Prod.fst).Nodup
  ids_nodup : (lru.map Node.id).Nodup
  lru_keys_nodup : (lru.map Node.first).Nodup
  pos_live : ∀ k e, (k, e) ∈ data → ∃ n ∈ lru, n.id = e.lru_pos ∧ n.first = k
  lru_stored : ∀ n ∈ lru, ∃ e, (n.first, e) ∈ data
  ids_fresh : ∀ n ∈ lru, n.id < next

/-- A well-formed store. -/
def WF (s : KeyValueStore) : Prop := WFc s.data s.lru_order s.next_id

/-- The invariant of a running cache: well-formed, positive capacity, not over
capacity. -/
def Inv (s : KeyValueStore) : Prop :=
  WF s ∧ 1 ≤ s.capacity ∧ (s.data.length : Int) ≤ s.capacity

/-! ## Touches -/

/-- The key that an operation touches in the state it is applied to: a set
touches its key, a get touches its key when it returns a value, and exists, a get
that returns absent, del and a reaper scan touch nothing. -/
def touched (s : KeyValueStore) : Op → Option String
  | .set _ key _ _ => some key
  | .get now key =>
    match get s now key with
    | some (_, some _) => some key
    | _ => none
  | .del _ => none
  | .«exists» _ _ => none
  | .reap _ => none

/-- The touched keys of a run, the most recent touch first, put in front of the
earlier touches `acc`. -/
def touches : KeyValueStore → List String → List Op → List String
  | _, acc, [] => acc
  | s, acc, op :: ops =>
    match step s op with
    | none => acc
    | some s1 => touches s1 ((touched s op).toList ++ acc) ops

/-- The list `l` is ordered by last touch with respect to the touch history `T`
(most recent first): every key of `l` has been touched, and a key that stands
before another one has its most recent touch later, that is nearer the head of `T`. -/
def TouchOrdered (l T : List String) : Prop :=
  (∀ k ∈ l, k ∈ T) ∧ l.Pairwise (fun a b => T.indexOf a < T.indexOf b)

/-- The operations `set(k1, v1), ..., set(kN, vN)` without TTL; each element
gives the clock reading, the key and the value of one call. -/
def set_ops (kvs : List (TimePoint × String × String)) : List Op :=
  kvs.map (fun p => Op.set p.1 p.2.1 p.2.2 none)

/-! ## The protocol layer of `server.cpp` -/

/-- The predicate `std::isspace` in the "C" locale, which `stream >> token` skips. -/
def is_space (c : Char) : Bool :=
  c = ' ' || c = '\t' || c = '\n' || c = Char.ofNat 11 || c = Char.ofNat 12 || c = '\r'

/-- The loop `while (stream >> token) tokens.push_back(token)` over the
characters still to read; `cur` is the token being read, last character first. -/
def parse_chars : List Char → List Char → List String
  | [], cur => if cur = [] then [] else [String.mk cur.reverse]
  | c :: cs, cur =>
    if is_space c then
      if cur = [] then parse_chars cs [] else String.mk cur.reverse :: parse_chars cs []
    else parse_chars cs (c :: cur)

/-- The function `parse`: the whitespace-separated tokens of a line. -/
def parse (line : String) : List String := parse_chars line.data []

/-- The exceptions `std::stoi` throws. -/
inductive StoiError where
  | invalid_argument
  | out_of_range
deriving DecidableEq, Repr

/-- What a call of `std::stoi` does: return a value or throw. -/
inductive StoiResult where
  | value (n : Int)
  | throws (e : StoiError)
deriving DecidableEq, Repr

/-- The value of a run of decimal digits, most significant first, on top of `acc`. -/
def digits_value : List Char → Nat → Nat
  | [], acc => acc
  | c :: cs, acc => digits_value cs (acc * 10 + (c.toNat - 48))

/-- The digits and sign that `std::stoi` converts, after the leading white space:
an optional sign, then the longest run of decimal digits; what follows is
ignored.  No digit is `invalid_argument`; a value outside `int` is `out_of_range`. -/
def stoi_signed (cs : List Char) : StoiResult :=
  let neg : Bool := cs.head? = some '-'
  let body : List Char :=
    if cs.head? = some '-' ∨ cs.head? = some '+' then cs.tail else cs
  let ds : List Char := body.takeWhile Char.isDigit
  if ds = [] then StoiResult.throws StoiError.invalid_argument
  else
    let v : Int := if neg then -((digits_value ds 0 : Nat) : Int) else ((digits_value ds 0 : Nat) : Int)
    if v < -2147483648 ∨ 2147483647 < v then StoiResult.throws StoiError.out_of_range
    else StoiResult.value v

/-- The library function `std::stoi(str)` in base 10. -/
def stoi (str : String) : StoiResult :=
  stoi_signed (str.data.dropWhile is_space)

/-- What one pass of the loop of `handle_client` does with a received line. -/
inductive Handled where
  /-- A response was sent; the store is as the command left it. -/
  | sent (store : KeyValueStore) (response : String)
  /-- No token: `continue`, nothing is sent. -/
  | skipped (store : KeyValueStore)
  /-- An exception left the loop; nothing is sent. -/
  | threw (e : StoiError)
  /-- A store operation was undefined. -/
  | undefined
deriving DecidableEq, Repr

/-- The body of the loop of `handle_client` after `parse`: dispatch on the first
token.  `now` is what the clock reads inside the store operation. -/
def handle_tokens (store : KeyValueStore) (now : TimePoint) (tokens : List String) : Handled :=
  match tokens with
  | [] => Handled.skipped store
  | cmd :: _ =>
    if cmd = "SET" then
      if tokens.length < 3 then Handled.sent store "ERROR usage: SET key value [ttl]\n"
      else if tokens.length = 4 then
        match stoi (tokens.getD 3 "") with
        | StoiResult.throws e => Handled.threw e
        | StoiResult.value ttl =>
          match set store now (tokens.getD 1 "") (tokens.getD 2 "") (some ttl) with
          | none => Handled.undefined
          | some s1 => Handled.sent s1 "OK\n"
      else
        match set store now (tokens.getD 1 "") (tokens.getD 2 "") none with
        | none => Handled.undefined
        | some s1 => Handled.sent s1 "OK\n"
    else if cmd = "GET" then
      if tokens.length < 2 then Handled.sent store "ERROR usage: GET key\n"
      else
        match get store now (tokens.getD 1 "") with
        | none => Handled.undefined
        | some (s1, some val) => Handled.sent s1 (val ++ "\n")
        | some (s1, none) => Handled.sent s1 "(nil)\n"
    else if cmd = "DEL" then
      if tokens.length < 2 then Handled.sent store "ERROR usage: DEL key\n"
      else
        match del store (tokens.getD 1 "") with
        | none => Handled.undefined
        | some s1 => Handled.sent s1 "OK\n"
    else if cmd = "EXISTS" then
      if tokens.length < 2 then Handled.sent store "ERROR usage: EXISTS key\n"
      else
        Handled.sent («exists» store now (tokens.getD 1 "")).1
          (if («exists» store now (tokens.getD 1 "")).2 then "1\n" else "0\n")
    else Handled.sent store ("ERROR unknown command: " ++ cmd ++ "\n")

/-- One pass of the loop of `handle_client` on the received text `line`. -/
def handle_client (store : KeyValueStore) (now : TimePoint) (line : String) : Handled :=
  handle_tokens store now (parse line)

/-- The integer that a decimal numeral denotes: `sign` is empty, a plus or a
minus, and `ds` are the digits, most significant first. -/
def decimal_value (sign ds : List Char) : Int :=
  if sign = ['-'] then -((digits_value ds 0 : Nat) : Int) else ((digits_value ds 0 : Nat) : Int)

/-! ## The lock each member function takes -/

/-- The two ways of acquiring `rw_mutex`: `std::shared_lock` and `std::unique_lock`. -/
inductive LockMode where
  | shared
  | exclusive
deriving DecidableEq, Repr

/-- The functions of `store.cpp` that lock `rw_mutex`. -/
inductive Method where
  | set
  | get
  | del
  | «exists»
  | reaper_loop
deriving DecidableEq, Repr

/-- The guard each function declares on `rw_mutex` in `store.cpp`. -/
def lock_mode : Method → LockMode
  | .set => LockMode.exclusive
  | .get => LockMode.shared
  | .del => LockMode.exclusive
  | .«exists» => LockMode.shared
  | .reaper_loop => LockMode.exclusive

/-- Whether `std::shared_timed_mutex` lets two threads hold these acquisitions at
the same time: only two shared ones. -/
def may_hold_together : LockMode → LockMode → Bool
  | LockMode.shared, LockMode.shared => true
  | _, _ => false

/-! ## Demonstration states -/

/-- A sample session against a cache of capacity 2. -/
def demo_ops : List Op :=
  [.set 0 "a" "1" none, .set 1 "b" "2" (some 5), .get 2 "a", .«exists» 3 "b", .del "zz",
   .reap (fun _ => 4), .set 5 "c" "3" none]

/-- The cache after the first operation of `demo_ops`: one key, one free slot. -/
def demo_one : KeyValueStore :=
  { capacity := 2,
    data := [("a", { value := "1", expires_at := none, lru_pos := 0 })],
    lru_order := [{ id := 0, first := "a", second := "1" }],
    next_id := 1 }

/-- The cache after the first three operations of `demo_ops`: full, `b` least recent. -/
def demo_full : KeyValueStore :=
  { capacity := 2,
    data := [("b", { value := "2", expires_at := some 5000000001, lru_pos := 1 }),
             ("a", { value := "1", expires_at := none, lru_pos := 0 })],
    lru_order := [{ id := 0, first := "a", second := "1" }, { id := 1, first := "b", second := "2" }],
    next_id := 2 }

/-- The cache after all of `demo_ops`. -/
def demo_final : KeyValueStore :=
  { capacity := 2,
    data := [("c", { value := "3", expires_at := none, lru_pos := 2 }),
             ("a", { value := "1", expires_at := none, lru_pos := 0 })],
    lru_order := [{ id := 2, first := "c", second := "3" }, { id := 0, first := "a", second := "1" }],
    next_id := 3 }

/-- The cache after `SET x v 1` at clock reading 0 on an empty cache of capacity 10. -/
def demo_ttl : KeyValueStore :=
  { capacity := 10,
    data := [("x", { value := "v", expires_at := some 1000000000, lru_pos := 0 })],
    lru_order := [{ id := 0, first := "x", second := "v" }],
    next_id := 1 }

/-- The cache after `SET x v 0` at clock reading 5 on an empty cache of capacity 1. -/
def demo_ttl_zero : KeyValueStore :=
  { capacity := 1,
    data := [("x", { value := "v", expires_at := some 5, lru_pos := 0 })],
    lru_order := [{ id := 0, first := "x", second := "v" }],
    next_id := 1 }

/-- The cache of capacity 2 after `set(a, 1)` and `set(b, 2, ttl 0)` at clock
reading 0: `b` is expired at every later reading. -/
def demo_expired : KeyValueStore :=
  { capacity := 2,
    data := [("b", { value := "2", expires_at := some 0, lru_pos := 1 }),
             ("a", { value := "1", expires_at := none, lru_pos := 0 })],
    lru_order := [{ id := 1, first := "b", second := "2" }, { id := 0, first := "a", second := "1" }],
    next_id := 2 }

/-- The cache `demo_expired` after `set(c, 3)` at clock reading 10. -/
def demo_expired_after : KeyValueStore :=
  { capacity := 2,
    data := [("c", { value := "3", expires_at := none, lru_pos := 2 }),
             ("b", { value := "2", expires_at := some 0, lru_pos := 1 })],
    lru_order := [{ id := 2, first := "c", second := "3" }, { id := 1, first := "b", second := "2" }],
    next_id := 3 }

/-- The cache of capacity 2 after `set(a, 1)` and `set(b, 2)`, no TTL. -/
def demo_two : KeyValueStore :=
  { capacity := 2,
    data := [("b", { value := "2", expires_at := none, lru_pos := 1 }),
             ("a", { value := "1", expires_at := none, lru_pos := 0 })],
    lru_order := [{ id := 1, first := "b", second := "2" }, { id := 0, first := "a", second := "1" }],
    next_id := 2 }

/-- The cache `demo_two` after `get(a)`. -/
def demo_two_after_get : KeyValueStore :=
  { capacity := 2,
    data := [("b", { value := "2", expires_at := none, lru_pos := 1 }),
             ("a", { value := "1", expires_at := none, lru_pos := 0 })],
    lru_order := [{ id := 0, first := "a", second := "1" }, { id := 1, first := "b", second := "2" }],
    next_id := 2 }

/-- The cache of capacity 10 after the line `SET k (nil)`. -/
def demo_nil : KeyValueStore :=
  { capacity := 10,
    data := [("k", { value := "(nil)", expires_at := none, lru_pos := 0 })],
    lru_order := [{ id := 0, first := "k", second := "(nil)" }],
    next_id := 1 }

/-- The cache of capacity 10 after the line `SET k v 10 extra`. -/
def demo_extra : KeyValueStore :=
  { capacity := 10,
    data := [("k", { value := "v", expires_at := none, lru_pos := 0 })],
    lru_order := [{ id := 0, first := "k", second := "v" }],
    next_id := 1 }

/-- The cache of capacity 2 after `set(a, 1, ttl 3)` at clock reading 7 and
`set(b, 2, ttl 2)` at clock reading 1000000005: `b` expires at 3000000005 and is
visited first by the reaper, `a` expires at 3000000007. -/
def demo_moving : KeyValueStore :=
  { capacity := 2,
    data := [("b", { value := "2", expires_at := some 3000000005, lru_pos := 1 }),
             ("a", { value := "1", expires_at := some 3000000007, lru_pos := 0 })],
    lru_order := [{ id := 1, first := "b", second := "2" }, { id := 0, first := "a", second := "1" }],
    next_id := 2 }

/-- A clock that moves during a reaper pass: the first call of `is_expired` reads
3000000004, every later one reads 3000000008. -/
def demo_clock : Nat → TimePoint := fun i => if i = 0 then 3000000004 else 3000000008

/-- The cache `demo_moving` after a reaper pass that reads `demo_clock`. -/
def demo_moving_after : KeyValueStore :=
  { capacity := 2,
    data := [("b", { value := "2", expires_at := some 3000000005, lru_pos := 1 })],
    lru_order := [{ id := 1, first := "b", second := "2" }],
    next_id := 2 }

/-! ## Lemmas on the map -/

theorem find_some_mem {data : List (String × Entry)} {key : String} {e : Entry}
    (h : find data key = some e) : (key, e) ∈ data := by
  induction data with
  | nil => simp [find] at h
  | cons p rest ih =>
    obtain ⟨k, e0⟩ := p
    by_cases hk : k = key
    · simp [find, hk] at h
      simp [hk, h]
    · simp [find, hk] at h
      exact List.mem_cons_of_mem _ (ih h)

theorem find_eq_none_iff {data : List (String × Entry)} {key : String} :
    find data key = none ↔ key ∉ data.map Prod.fst := by
  induction data with
  | nil => simp [find]
  | cons p rest ih =>
    obtain ⟨k, e0⟩ := p
    by_cases hk : k = key
    · simp [find, hk]
    · simp only [find, hk, if_false, ih, List.map_cons, List.mem_cons]
      constructor
      · intro h1 h2
        rcases h2 with h2 | h2
        · exact hk h2.symm
        · exact h1 h2
      · intro h1 h2
        exact h1 (Or.inr h2)

theorem mem_find {data : List (String × Entry)} {key : String} {e : Entry}
    (hnd : (data.map Prod.fst).Nodup) (h : (key, e) ∈ data) : find data key = some e := by
  induction data with
  | nil => simp at h
  | cons p rest ih =>
    obtain ⟨k, e0⟩ := p
    simp only [List.map_cons, List.nodup_cons] at hnd
    rcases List.mem_cons.mp h with h | h
    · cases h
      simp [find]
    · have hne : k ≠ key := by
        intro hk
        apply hnd.1
        rw [hk]
        exact List.mem_map_of_mem Prod.fst h
      simp only [find, hne, if_false]
      exact ih hnd.2 h

theorem find_isSome_iff {data : List (String × Entry)} {key : String} :
    (find data key).isSome = true ↔ key ∈ data.map Prod.fst := by
  rw [← not_iff_not, ← find_eq_none_iff]
  cases find data key <;> simp

theorem map_fst_erase_key (data : List (String × Entry)) (key : String) :
    (erase_key data key).map Prod.fst = (data.map Prod.fst).filter (fun k => !decide (k = key)) := by
  induction data with
  | nil => rfl
  | cons p rest ih =>
    by_cases hk : p.1 = key
    · simp only [erase_key] at ih
      simp [erase_key, List.filter_cons, hk, ih]
    · simp only [erase_key] at ih
      simp [erase_key, List.filter_cons, hk, ih]

theorem mem_erase_key {data : List (String × Entry)} {key : String} {p : String × Entry} :
    p ∈ erase_key data key ↔ p ∈ data ∧ p.1 ≠ key := by
  simp [erase_key, List.mem_filter]

theorem find_erase_key (data : List (String × Entry)) (key k : String) :
    find (erase_key data key) k = if k = key then none else find data k := by
  induction data with
  | nil => simp [erase_key, find]
  | cons p rest ih =>
    obtain ⟨k0, e0⟩ := p
    by_cases h0 : k0 = key
    · have h1 : erase_key ((k0, e0) :: rest) key = erase_key rest key := by
        simp [erase_key, List.filter_cons, h0]
      rw [h1, ih]
      by_cases hk : k = key
      · simp [hk]
      · have hk2 : ¬ k0 = k := fun h => hk (h ▸ h0)
        simp [hk, find, hk2]
    · have h1 : erase_key ((k0, e0) :: rest) key = (k0, e0) :: erase_key rest key := by
        simp [erase_key, List.filter_cons, h0]
      rw [h1]
      by_cases hk : k0 = k
      · have hk3 : ¬ k = key := fun h => h0 (hk.trans h)
        simp [find, hk, hk3]
      · simp [find, hk, ih]

theorem length_erase_key {data : List (String × Entry)} {key : String}
    (hnd : (data.map Prod.fst).Nodup) (h : key ∈ data.map Prod.fst) :
    (erase_key data key).length + 1 = data.length := by
  induction data with
  | nil => simp at h
  | cons p rest ih =>
    simp only [List.map_cons, List.nodup_cons] at hnd
    by_cases hk : p.1 = key
    · have hrest : erase_key rest key = rest := by
        unfold erase_key
        rw [List.filter_eq_self]
        intro q hq
        have : q.1 ≠ key := by
          intro hq2
          apply hnd.1
          rw [hk, ← hq2]
          exact List.mem_map_of_mem Prod.fst hq
        simpa using this
      have : erase_key (p :: rest) key = erase_key rest key := by
        simp [erase_key, List.filter_cons, hk]
      rw [this, hrest]
      simp
    · have hmem : key ∈ rest.map Prod.fst := by
        simp only [List.map_cons, List.mem_cons] at h
        rcases h with h | h
        · exact absurd h.symm hk
        · exact h
      have : erase_key (p :: rest) key = p :: erase_key rest key := by
        simp [erase_key, List.filter_cons, hk]
      rw [this]
      simp only [List.length_cons]
      rw [ih hnd.2 hmem]

theorem map_fst_assign (data : List (String × Entry)) (key : String) (f : Entry → Entry) :
    (assign data key f).map Prod.fst = data.map Prod.fst := by
  induction data with
  | nil => rfl
  | cons p rest ih =>
    simp only [assign] at ih
    by_cases hk : p.1 = key <;> simp [assign, hk, ih]

theorem assign_cons (k0 : String) (e0 : Entry) (rest : List (String × Entry)) (key : String)
    (f : Entry → Entry) :
    assign ((k0, e0) :: rest) key f
      = (k0, if k0 = key then f e0 else e0) :: assign rest key f := by
  by_cases h : k0 = key <;> simp [assign, h]

theorem find_assign (data : List (String × Entry)) (key k : String) (f : Entry → Entry) :
    find (assign data key f) k = if k = key then (find data key).map f else find data k := by
  induction data with
  | nil => simp [assign, find]
  | cons p rest ih =>
    obtain ⟨k0, e0⟩ := p
    rw [assign_cons]
    by_cases hk : k0 = k
    · by_cases h0 : k0 = key
      · have h2 : k = key := hk ▸ h0
        simp [find, hk, h0, h2]
      · have h2 : ¬ k = key := fun h => h0 (hk.trans h)
        simp [find, hk, h0, h2]
    · by_cases h0 : k0 = key
      · by_cases h2 : k = key
        · exact absurd (h0.trans h2.symm) hk
        · have h3 : ¬ key = k := fun h => h2 h.symm
          simp [find, hk, h0, h2, h3, ih]
      · simp [find, hk, h0, ih]

theorem mem_assign {data : List (String × Entry)} {key : String} {f : Entry → Entry}
    {k : String} {e : Entry} (h : (k, e) ∈ assign data key f) :
    ∃ e0, (k, e0) ∈ data ∧ e = (if k = key then f e0 else e0) := by
  simp only [assign, List.mem_map] at h
  obtain ⟨⟨k0, e0⟩, hmem, heq⟩ := h
  by_cases hk : k0 = key
  · simp only [hk, if_true, Prod.mk.injEq] at heq
    obtain ⟨h1, h2⟩ := heq
    subst h1
    refine ⟨e0, ?_, ?_⟩
    · rw [← hk]; exact hmem
    · simp [h2]
  · simp only [hk, if_false, Prod.mk.injEq] at heq
    obtain ⟨h1, h2⟩ := heq
    subst h1 h2
    exact ⟨e0, hmem, by simp [hk]⟩

/-! ## Lemmas on the recency list -/

theorem any_id_iff {l : List Node} {p : Nat} :
    l.any (fun n => decide (n.id = p)) = true ↔ p ∈ l.map Node.id := by
  simp only [List.any_eq_true, decide_eq_true_eq, List.mem_map]

theorem list_erase_of_mem {l : List Node} {p : Nat} (h : p ∈ l.map Node.id) :
    list_erase l p = some (l.filter (fun n => !decide (n.id = p))) := by
  unfold list_erase
  rw [if_pos (any_id_iff.mpr h)]

theorem list_erase_of_not_mem {l : List Node} {p : Nat} (h : p ∉ l.map Node.id) :
    list_erase l p = none := by
  unfold list_erase
  rw [if_neg (fun hc => h (any_id_iff.mp hc))]

theorem node_eq_of_id {l : List Node} (hnd : (l.map Node.id).Nodup) {n m : Node}
    (hn : n ∈ l) (hm : m ∈ l) (h : n.id = m.id) : n = m :=
  List.inj_on_of_nodup_map hnd hn hm h

theorem node_eq_of_first {l : List Node} (hnd : (l.map Node.first).Nodup) {n m : Node}
    (hn : n ∈ l) (hm : m ∈ l) (h : n.first = m.first) : n = m :=
  List.inj_on_of_nodup_map hnd hn hm h

theorem find?_id {l : List Node} (hnd : (l.map Node.id).Nodup) {n : Node} (hn : n ∈ l) :
    l.find? (fun m => decide (m.id = n.id)) = some n := by
  induction l with
  | nil => simp at hn
  | cons a t ih =>
    simp only [List.map_cons, List.nodup_cons] at hnd
    by_cases ha : a.id = n.id
    · have : a = n := by
        rcases List.mem_cons.mp hn with h | h
        · exact h.symm
        · exfalso
          apply hnd.1
          rw [ha]
          exact List.mem_map_of_mem Node.id h
      simp [List.find?_cons, this]
    · have hn2 : n ∈ t := by
        rcases List.mem_cons.mp hn with h | h
        · exact absurd (by rw [h]) ha
        · exact h
      simp only [List.find?_cons, ha, decide_False]
      exact ih hnd.2 hn2

theorem list_splice_front_of_mem {l : List Node} (hnd : (l.map Node.id).Nodup) {n : Node}
    (hn : n ∈ l) :
    list_splice_front l n.id = some (n :: l.filter (fun m => !decide (m.id = n.id))) := by
  unfold list_splice_front
  rw [find?_id hnd hn]

theorem splice_perm {l : List Node} (hnd : (l.map Node.id).Nodup) {n : Node} (hn : n ∈ l) :
    (n :: l.filter (fun m => !decide (m.id = n.id))).Perm l := by
  induction l with
  | nil => simp at hn
  | cons a t ih =>
    simp only [List.map_cons, List.nodup_cons] at hnd
    by_cases ha : a.id = n.id
    · have han : a = n := by
        rcases List.mem_cons.mp hn with h | h
        · exact h.symm
        · exfalso
          apply hnd.1
          rw [ha]
          exact List.mem_map_of_mem Node.id h
      subst han
      have ht : t.filter (fun m => !decide (m.id = a.id)) = t := by
        rw [List.filter_eq_self]
        intro m hm
        have : m.id ≠ a.id := by
          intro h
          apply hnd.1
          rw [← h]
          exact List.mem_map_of_mem Node.id hm
        simpa using this
      simp [List.filter_cons, ht]
    · have hn2 : n ∈ t := by
        rcases List.mem_cons.mp hn with h | h
        · exact absurd (by rw [h]) ha
        · exact h
      have h1 : (a :: t).filter (fun m => !decide (m.id = n.id))
          = a :: t.filter (fun m => !decide (m.id = n.id)) := by
        simp [List.filter_cons, ha]
      rw [h1]
      exact (List.Perm.swap a n _).trans ((ih hnd.2 hn2).cons a)

theorem filter_id_eq_filter_first {l : List Node} (hid : (l.map Node.id).Nodup)
    (hk : (l.map Node.first).Nodup) {n : Node} (hn : n ∈ l) :
    l.filter (fun m => !decide (m.id = n.id))
      = l.filter (fun m => !decide (m.first = n.first)) := by
  apply List.filter_congr
  intro m hm
  by_cases h : m.id = n.id
  · have := node_eq_of_id hid hm hn h
    simp [this]
  · have h2 : m.first ≠ n.first := fun h2 => h (by rw [node_eq_of_first hk hm hn h2])
    simp [h, h2]

theorem map_first_filter (l : List Node) (k : String) :
    (l.filter (fun m => !decide (m.first = k))).map Node.first
      = (l.map Node.first).filter (fun a => !decide (a = k)) := by
  rw [List.filter_map]
  rfl

theorem dropLast_eq_filter {l : List Node} (hid : (l.map Node.id).Nodup) {n : Node}
    (hn : l.getLast? = some n) :
    l.dropLast = l.filter (fun m => !decide (m.id = n.id)) := by
  have hl : l.dropLast ++ [n] = l := List.dropLast_append_getLast? n hn
  have hid2 : ((l.dropLast ++ [n]).map Node.id).Nodup := by rw [hl]; exact hid
  rw [List.map_append, List.nodup_append] at hid2
  obtain ⟨_, _, hdis⟩ := hid2
  have h1 : l.dropLast.filter (fun m => !decide (m.id = n.id)) = l.dropLast := by
    rw [List.filter_eq_self]
    intro m hm
    have : m.id ≠ n.id := by
      intro h
      exact hdis (List.mem_map_of_mem Node.id hm) (by simp [h])
    simpa using this
  conv_rhs => rw [← hl]
  rw [List.filter_append, h1]
  simp

theorem getLast?_mem {l : List Node} {n : Node} (hn : l.getLast? = some n) : n ∈ l := by
  have hl : l.dropLast ++ [n] = l := List.dropLast_append_getLast? n hn
  rw [← hl]
  simp

/-! ## Preservation of well-formedness by the container updates -/

theorem WFc_nil (next : Nat) : WFc [] [] next :=
  ⟨by simp, by simp, by simp, by simp, by simp, by simp⟩

theorem WFc_perm {data : List (String × Entry)} {lru lru1 : List Node} {next : Nat}
    (hp : lru1.Perm lru) (h : WFc data lru next) : WFc data lru1 next := by
  refine ⟨h.keys_nodup, ?_, ?_, ?_, ?_, ?_⟩
  · exact ((hp.map Node.id).nodup_iff).mpr h.ids_nodup
  · exact ((hp.map Node.first).nodup_iff).mpr h.lru_keys_nodup
  · intro k e hke
    obtain ⟨n, hn, h1, h2⟩ := h.pos_live k e hke
    exact ⟨n, hp.mem_iff.mpr hn, h1, h2⟩
  · intro n hn
    exact h.lru_stored n (hp.mem_iff.mp hn)
  · intro n hn
    exact h.ids_fresh n (hp.mem_iff.mp hn)

theorem WFc_remove {data : List (String × Entry)} {lru : List Node} {next : Nat}
    (h : WFc data lru next) {k : String} {e : Entry} (hke : (k, e) ∈ data) :
    WFc (erase_key data k) (lru.filter (fun m => !decide (m.id = e.lru_pos))) next := by
  obtain ⟨n, hn, hnid, hnk⟩ := h.pos_live k e hke
  refine ⟨?_, ?_, ?_, ?_, ?_, ?_⟩
  · rw [map_fst_erase_key]
    exact h.keys_nodup.filter _
  · exact h.ids_nodup.sublist ((List.filter_sublist _).map Node.id)
  · exact h.lru_keys_nodup.sublist ((List.filter_sublist _).map Node.first)
  · intro k1 e1 h1
    obtain ⟨h1mem, h1ne⟩ := mem_erase_key.mp h1
    obtain ⟨m, hm, hmid, hmk⟩ := h.pos_live k1 e1 h1mem
    refine ⟨m, ?_, hmid, hmk⟩
    rw [List.mem_filter]
    refine ⟨hm, ?_⟩
    have : m.id ≠ e.lru_pos := by
      intro hid
      have hmn : m = n := node_eq_of_id h.ids_nodup hm hn (hid.trans hnid.symm)
      apply h1ne
      show k1 = k
      rw [← hmk, hmn, hnk]
    simpa using this
  · intro m hm
    rw [List.mem_filter] at hm
    obtain ⟨hm, hmid⟩ := hm
    obtain ⟨e1, he1⟩ := h.lru_stored m hm
    refine ⟨e1, mem_erase_key.mpr ⟨he1, ?_⟩⟩
    intro hk
    have hmn : m = n := node_eq_of_first h.lru_keys_nodup hm hn (hk.trans hnk.symm)
    rw [hmn, hnid] at hmid
    simp at hmid
  · intro m hm
    exact h.ids_fresh m (List.mem_of_mem_filter hm)

theorem WFc_assign {data : List (String × Entry)} {lru : List Node} {next : Nat}
    (h : WFc data lru next) (key : String) (f : Entry → Entry)
    (hf : ∀ e, (f e).lru_pos = e.lru_pos) : WFc (assign data key f) lru next := by
  refine ⟨?_, h.ids_nodup, h.lru_keys_nodup, ?_, ?_, h.ids_fresh⟩
  · rw [map_fst_assign]
    exact h.keys_nodup
  · intro k e hke
    obtain ⟨e0, he0, heq⟩ := mem_assign hke
    obtain ⟨n, hn, h1, h2⟩ := h.pos_live k e0 he0
    refine ⟨n, hn, ?_, h2⟩
    rw [h1, heq]
    by_cases hk : k = key
    · simp [hk, hf]
    · simp [hk]
  · intro n hn
    obtain ⟨e, he⟩ := h.lru_stored n hn
    have h1 : find data n.first = some e := mem_find h.keys_nodup he
    have h2 := find_assign data key n.first f
    by_cases hk : n.first = key
    · rw [if_pos hk, ← hk, h1] at h2
      rw [← hk]
      exact ⟨f e, find_some_mem h2⟩
    · rw [if_neg hk, h1] at h2
      exact ⟨e, find_some_mem h2⟩

theorem WFc_insert {data : List (String × Entry)} {lru : List Node} {next : Nat}
    (h : WFc data lru next) {key : String} (hk : key ∉ data.map Prod.fst)
    (val : String) (exp : Option TimePoint) :
    WFc ((key, { value := val, expires_at := exp, lru_pos := next }) :: data)
      ({ id := next, first := key, second := val } :: lru) (next + 1) := by
  refine ⟨?_, ?_, ?_, ?_, ?_, ?_⟩
  · simp only [List.map_cons, List.nodup_cons]
    exact ⟨hk, h.keys_nodup⟩
  · simp only [List.map_cons, List.nodup_cons]
    refine ⟨?_, h.ids_nodup⟩
    intro hmem
    obtain ⟨n, hn, hid⟩ := List.mem_map.mp hmem
    have := h.ids_fresh n hn
    omega
  · simp only [List.map_cons, List.nodup_cons]
    refine ⟨?_, h.lru_keys_nodup⟩
    intro hmem
    obtain ⟨n, hn, hfirst⟩ := List.mem_map.mp hmem
    obtain ⟨e, he⟩ := h.lru_stored n hn
    apply hk
    rw [← hfirst]
    exact List.mem_map_of_mem Prod.fst he
  · intro k e hke
    rcases List.mem_cons.mp hke with h1 | h1
    · cases h1
      exact ⟨_, List.mem_cons_self _ _, rfl, rfl⟩
    · obtain ⟨n, hn, h2, h3⟩ := h.pos_live k e h1
      exact ⟨n, List.mem_cons_of_mem _ hn, h2, h3⟩
  · intro n hn
    rcases List.mem_cons.mp hn with h1 | h1
    · subst h1
      exact ⟨_, List.mem_cons_self _ _⟩
    · obtain ⟨e, he⟩ := h.lru_stored n h1
      exact ⟨e, List.mem_cons_of_mem _ he⟩
  · intro n hn
    rcases List.mem_cons.mp hn with h1 | h1
    · subst h1
      exact Nat.lt_succ_self _
    · exact Nat.lt_succ_of_lt (h.ids_fresh n h1)

/-! ## The member functions on a well-formed store -/

theorem WF_mk_empty (cap : Int) : WF (KeyValueStore.mk_empty cap) := WFc_nil 0

theorem lru_ne_nil_of_data {s : KeyValueStore} (hwf : WF s) (h : s.data ≠ []) :
    s.lru_order ≠ [] := by
  cases hd : s.data with
  | nil => exact absurd hd h
  | cons p rest =>
    obtain ⟨n, hn, _⟩ := hwf.pos_live p.1 p.2 (by rw [hd]; exact List.mem_cons_self _ _)
    exact List.ne_nil_of_mem hn

theorem not_mem_lru_keys {s : KeyValueStore} (hwf : WF s) {key : String}
    (h : key ∉ stored_keys s) : key ∉ lru_keys s := by
  intro hmem
  obtain ⟨n, hn, hfirst⟩ := List.mem_map.mp hmem
  obtain ⟨e, he⟩ := hwf.lru_stored n hn
  apply h
  rw [← hfirst]
  exact List.mem_map_of_mem Prod.fst he

theorem mem_lru_keys {s : KeyValueStore} (hwf : WF s) {key : String}
    (h : key ∈ stored_keys s) : key ∈ lru_keys s := by
  obtain ⟨⟨k, e⟩, hp, hk⟩ := List.mem_map.mp h
  obtain ⟨n, hn, _, hfirst⟩ := hwf.pos_live k e hp
  simp only at hk
  rw [← hk, ← hfirst]
  exact List.mem_map_of_mem Node.first hn

theorem move_to_front_spec {s : KeyValueStore} (hwf : WF s) {key : String} {e : Entry}
    (hf : find s.data key = some e) :
    ∃ s1, move_to_front s key = some s1 ∧ WF s1 ∧ s1.data = s.data
      ∧ s1.capacity = s.capacity ∧ s1.next_id = s.next_id
      ∧ lru_keys s1 = key :: (lru_keys s).filter (fun a => !decide (a = key)) := by
  obtain ⟨n, hn, hnid, hnk⟩ := hwf.pos_live key e (find_some_mem hf)
  have hsp := list_splice_front_of_mem hwf.ids_nodup hn
  rw [hnid] at hsp
  refine ⟨{ s with lru_order := n :: s.lru_order.filter (fun m => !decide (m.id = n.id)) },
    ?_, ?_, rfl, rfl, rfl, ?_⟩
  · unfold move_to_front
    rw [hf]
    simp only
    rw [hsp, hnid]
  · exact WFc_perm (splice_perm hwf.ids_nodup hn) hwf
  · show (n :: s.lru_order.filter (fun m => !decide (m.id = n.id))).map Node.first = _
    rw [filter_id_eq_filter_first hwf.ids_nodup hwf.lru_keys_nodup hn, List.map_cons,
      map_first_filter, hnk]
    rfl

theorem evict_lru_spec {s : KeyValueStore} (hwf : WF s) (hne : s.lru_order ≠ []) :
    ∃ s1 b, evict_lru s = some s1 ∧ (lru_keys s).getLast? = some b ∧ b ∈ stored_keys s
      ∧ WF s1 ∧ s1.data = erase_key s.data b ∧ lru_keys s1 = (lru_keys s).dropLast
      ∧ s1.capacity = s.capacity ∧ s1.next_id = s.next_id := by
  cases hl : s.lru_order.getLast? with
  | none => exact absurd (List.getLast?_eq_none_iff.mp hl) hne
  | some n =>
    have hn : n ∈ s.lru_order := getLast?_mem hl
    obtain ⟨e, he⟩ := hwf.lru_stored n hn
    obtain ⟨m, hm, hmid, hmk⟩ := hwf.pos_live n.first e he
    have hmn : m = n := node_eq_of_first hwf.lru_keys_nodup hm hn hmk
    rw [hmn] at hmid
    refine ⟨{ s with data := erase_key s.data n.first, lru_order := s.lru_order.dropLast },
      n.first, ?_, ?_, ?_, ?_, rfl, ?_, rfl, rfl⟩
    · unfold evict_lru
      rw [hl]
    · unfold lru_keys
      rw [List.getLast?_map, hl]
      rfl
    · exact List.mem_map_of_mem Prod.fst he
    · have h1 := WFc_remove hwf he
      rw [← hmid, ← dropLast_eq_filter hwf.ids_nodup hl] at h1
      exact h1
    · unfold lru_keys
      exact List.map_dropLast _ _

theorem erase_key_of_not_mem {data : List (String × Entry)} {key : String}
    (h : key ∉ data.map Prod.fst) : erase_key data key = data := by
  unfold erase_key
  rw [List.filter_eq_self]
  intro p hp
  have : p.1 ≠ key := fun hk => h (hk ▸ List.mem_map_of_mem Prod.fst hp)
  simpa using this

theorem filter_ne_of_not_mem {l : List String} {key : String} (h : key ∉ l) :
    l.filter (fun a => !decide (a = key)) = l := by
  rw [List.filter_eq_self]
  intro a ha
  have : a ≠ key := fun hk => h (hk ▸ ha)
  simpa using this

theorem del_spec {s : KeyValueStore} (hwf : WF s) (key : String) :
    ∃ s1, del s key = some s1 ∧ WF s1 ∧ s1.data = erase_key s.data key
      ∧ lru_keys s1 = (lru_keys s).filter (fun a => !decide (a = key))
      ∧ s1.capacity = s.capacity ∧ s1.next_id = s.next_id := by
  cases hf : find s.data key with
  | none =>
    have hk : key ∉ stored_keys s := find_eq_none_iff.mp hf
    refine ⟨s, ?_, hwf, ?_, ?_, rfl, rfl⟩
    · unfold del
      rw [hf]
    · exact (erase_key_of_not_mem hk).symm
    · exact (filter_ne_of_not_mem (not_mem_lru_keys hwf hk)).symm
  | some e =>
    have he := find_some_mem hf
    obtain ⟨n, hn, hnid, hnk⟩ := hwf.pos_live key e he
    have her := list_erase_of_mem (List.mem_map_of_mem Node.id hn)
    rw [hnid] at her
    refine ⟨{ s with lru_order := s.lru_order.filter (fun m => !decide (m.id = e.lru_pos)),
                     data := erase_key s.data key }, ?_, ?_, rfl, ?_, rfl, rfl⟩
    · unfold del
      rw [hf]
      simp only
      rw [her]
    · exact WFc_remove hwf he
    · show (s.lru_order.filter (fun m => !decide (m.id = e.lru_pos))).map Node.first = _
      rw [← hnid, filter_id_eq_filter_first hwf.ids_nodup hwf.lru_keys_nodup hn,
        map_first_filter, hnk]
      rfl

theorem reaper_visit_spec (clk : Nat → TimePoint) (next : Nat) :
    ∀ (todo : List (String × Entry)) (i : Nat) (pre : List (String × Entry)) (lru : List Node),
      WFc (pre ++ todo) lru next →
      ∃ kept lru1, reaper_visit clk i todo lru = some (kept, lru1)
        ∧ WFc (pre ++ kept) lru1 next ∧ kept.Sublist todo ∧ lru1.Sublist lru := by
  intro todo
  induction todo with
  | nil =>
    intro i pre lru h
    exact ⟨[], lru, rfl, h, List.Sublist.refl _, List.Sublist.refl _⟩
  | cons p rest ih =>
    intro i pre lru h
    obtain ⟨k, e⟩ := p
    by_cases hx : is_expired e (clk i) = true
    · have hmem : (k, e) ∈ pre ++ (k, e) :: rest := by simp
      obtain ⟨n, hn, hnid, _⟩ := h.pos_live k e hmem
      have her := list_erase_of_mem (List.mem_map_of_mem Node.id hn)
      rw [hnid] at her
      have h1 := WFc_remove h hmem
      have hnd := h.keys_nodup
      have hpre : erase_key (pre ++ (k, e) :: rest) k = pre ++ rest := by
        rw [List.map_append, List.map_cons, List.nodup_append] at hnd
        obtain ⟨_, hnd2, hdis⟩ := hnd
        simp only [List.nodup_cons] at hnd2
        unfold erase_key
        rw [List.filter_append, List.filter_cons]
        simp only [decide_True, Bool.not_true, Bool.false_eq_true, if_false]
        have e1 := @erase_key_of_not_mem pre k
          (fun hc => hdis hc (List.mem_cons_self _ _))
        have e2 := @erase_key_of_not_mem rest k hnd2.1
        unfold erase_key at e1 e2
        rw [e1, e2]
      rw [hpre] at h1
      obtain ⟨kept, lru1, hr, hw, hs1, hs2⟩ := ih (i + 1) pre _ h1
      refine ⟨kept, lru1, ?_, hw, hs1.trans (List.sublist_cons_self _ _),
        hs2.trans (List.filter_sublist _)⟩
      simp only [reaper_visit, hx, if_true]
      rw [her]
      exact hr
    · have h1 : WFc ((pre ++ [(k, e)]) ++ rest) lru next := by
        rw [List.append_assoc]
        exact h
      obtain ⟨kept, lru1, hr, hw, hs1, hs2⟩ := ih (i + 1) (pre ++ [(k, e)]) lru h1
      refine ⟨(k, e) :: kept, lru1, ?_, ?_, hs1.cons₂ _, hs2⟩
      · simp only [reaper_visit, hx]
        rw [hr]
        rfl
      · rw [List.append_assoc] at hw
        exact hw

theorem reaper_scan_spec {s : KeyValueStore} (hwf : WF s) (clk : Nat → TimePoint) :
    ∃ s1, reaper_scan s clk = some s1 ∧ WF s1 ∧ s1.data.Sublist s.data
      ∧ (lru_keys s1).Sublist (lru_keys s)
      ∧ s1.capacity = s.capacity ∧ s1.next_id = s.next_id := by
  have h0 : WFc ([] ++ s.data) s.lru_order s.next_id := hwf
  obtain ⟨kept, lru1, hr, hw, hs1, hs2⟩ := reaper_visit_spec clk s.next_id s.data 0 [] _ h0
  refine ⟨{ s with data := kept, lru_order := lru1 }, ?_, hw, hs1, hs2.map Node.first, rfl, rfl⟩
  unfold reaper_scan
  rw [hr]

theorem set_existing_spec {s : KeyValueStore} (hwf : WF s) {key : String} {e : Entry}
    (hf : find s.data key = some e) (now : TimePoint) (val : String) (ttl : Option Int) :
    ∃ s1, set s now key val ttl = some s1 ∧ WF s1
      ∧ s1.data = assign s.data key
          (fun e0 => { e0 with value := val, expires_at := expiry_of now ttl })
      ∧ s1.capacity = s.capacity ∧ s1.next_id = s.next_id
      ∧ lru_keys s1 = key :: (lru_keys s).filter (fun a => !decide (a = key)) := by
  have hwf0 : WF { s with data := (assign s.data key
      (fun e0 => { e0 with value := val, expires_at := expiry_of now ttl })) } :=
    WFc_assign hwf key
      (fun e0 => { e0 with value := val, expires_at := expiry_of now ttl }) (fun _ => rfl)
  have hf0 : find (assign s.data key
      (fun e0 => { e0 with value := val, expires_at := expiry_of now ttl })) key
        = some { e with value := val, expires_at := expiry_of now ttl } := by
    rw [find_assign, if_pos rfl, hf]
    rfl
  obtain ⟨s1, h1, h2, h3, h4, h5, h6⟩ := move_to_front_spec hwf0 hf0
  refine ⟨s1, ?_, h2, h3, h4, h5, h6⟩
  unfold set
  simp only [hf, Option.isSome_some, if_true]
  exact h1

theorem set_new_free_spec {s : KeyValueStore} (hwf : WF s) {key : String}
    (hf : find s.data key = none) (hlt : (s.data.length : Int) < s.capacity)
    (now : TimePoint) (val : String) (ttl : Option Int) :
    ∃ s1, set s now key val ttl = some s1 ∧ WF s1
      ∧ s1.data = (key, { value := val, expires_at := expiry_of now ttl,
                          lru_pos := s.next_id }) :: s.data
      ∧ s1.capacity = s.capacity
      ∧ lru_keys s1 = key :: lru_keys s := by
  refine ⟨{ s with
      lru_order := { id := s.next_id, first := key, second := val } :: s.lru_order
      data := (key, { value := val, expires_at := expiry_of now ttl, lru_pos := s.next_id })
                :: s.data
      next_id := s.next_id + 1 }, ?_,
    WFc_insert hwf (find_eq_none_iff.mp hf) val (expiry_of now ttl), rfl, rfl, rfl⟩
  unfold set
  have hnot : ¬ ((s.data.length : Int) ≥ s.capacity) := by omega
  simp only [hf, Option.isSome_none, Bool.false_eq_true, if_false, hnot]

theorem set_new_full_spec {s : KeyValueStore} (hwf : WF s) {key : String}
    (hf : find s.data key = none) (hge : (s.data.length : Int) ≥ s.capacity)
    (hne : s.lru_order ≠ [])
    (now : TimePoint) (val : String) (ttl : Option Int) :
    ∃ s1 b, set s now key val ttl = some s1 ∧ (lru_keys s).getLast? = some b
      ∧ b ∈ stored_keys s ∧ WF s1
      ∧ s1.data = (key, { value := val, expires_at := expiry_of now ttl,
                          lru_pos := s.next_id }) :: erase_key s.data b
      ∧ s1.capacity = s.capacity
      ∧ lru_keys s1 = key :: (lru_keys s).dropLast := by
  obtain ⟨s0, b, h1, h2, h3, h4, h5, h6, h7, h8⟩ := evict_lru_spec hwf hne
  have hk : key ∉ s0.data.map Prod.fst := by
    rw [h5, map_fst_erase_key]
    intro hc
    exact find_eq_none_iff.mp hf (List.mem_of_mem_filter hc)
  refine ⟨{ s0 with
      lru_order := { id := s0.next_id, first := key, second := val } :: s0.lru_order
      data := (key, { value := val, expires_at := expiry_of now ttl, lru_pos := s0.next_id })
                :: s0.data
      next_id := s0.next_id + 1 }, b, ?_, h2, h3,
    WFc_insert h4 hk val (expiry_of now ttl), ?_, h7, ?_⟩
  · unfold set
    simp only [hf, Option.isSome_none, Bool.false_eq_true, if_false, hge, if_true, h1]
  · simp only [h5, h8]
  · show key :: lru_keys s0 = _
    rw [h6]

theorem set_WF {s s1 : KeyValueStore} (hwf : WF s) {now : TimePoint} {key val : String}
    {ttl : Option Int} (h : set s now key val ttl = some s1) : WF s1 := by
  cases hf : find s.data key with
  | some e =>
    obtain ⟨s2, h1, h2, _⟩ := set_existing_spec hwf hf now val ttl
    rw [h1] at h
    cases h
    exact h2
  | none =>
    by_cases hlt : (s.data.length : Int) < s.capacity
    · obtain ⟨s2, h1, h2, _⟩ := set_new_free_spec hwf hf hlt now val ttl
      rw [h1] at h
      cases h
      exact h2
    · by_cases hne : s.lru_order = []
      · exfalso
        unfold set at h
        have hge : (s.data.length : Int) ≥ s.capacity := by omega
        simp only [hf, Option.isSome_none, Bool.false_eq_true, if_false, hge, if_true,
          evict_lru, hne, List.getLast?_nil] at h
        cases h
      · obtain ⟨s2, b, h1, _, _, h2, _⟩ :=
          set_new_full_spec hwf hf (by omega) hne now val ttl
        rw [h1] at h
        cases h
        exact h2

theorem get_spec {s : KeyValueStore} (hwf : WF s) (now : TimePoint) (key : String) :
    ∃ s1 r, get s now key = some (s1, r) ∧ WF s1 ∧ s1.data = s.data
      ∧ s1.capacity = s.capacity ∧ s1.next_id = s.next_id
      ∧ ((r = none ∧ s1 = s ∧ ∀ e, find s.data key = some e → is_expired e now = true) ∨
         (∃ e, find s.data key = some e ∧ is_expired e now = false ∧ r = some e.value
            ∧ lru_keys s1 = key :: (lru_keys s).filter (fun a => !decide (a = key)))) := by
  cases hf : find s.data key with
  | none =>
    refine ⟨s, none, ?_, hwf, rfl, rfl, rfl, Or.inl ⟨rfl, rfl, ?_⟩⟩
    · unfold get
      rw [hf]
    · intro e he
      cases he
  | some e =>
    by_cases hx : is_expired e now = true
    · refine ⟨s, none, ?_, hwf, rfl, rfl, rfl, Or.inl ⟨rfl, rfl, ?_⟩⟩
      · unfold get
        rw [hf]
        simp only [hx, if_true]
      · intro e1 he1
        cases he1
        exact hx
    · obtain ⟨s1, h1, h2, h3, h4, h5, h6⟩ := move_to_front_spec hwf hf
      have hx2 : is_expired e now = false := by simpa using hx
      refine ⟨s1, some e.value, ?_, h2, h3, h4, h5, Or.inr ⟨e, rfl, hx2, rfl, h6⟩⟩
      unfold get
      rw [hf]
      simp only [hx2, h1, Bool.false_eq_true, if_false]

theorem exists_fst (s : KeyValueStore) (now : TimePoint) (key : String) :
    («exists» s now key).1 = s := by
  unfold «exists»
  cases find s.data key with
  | none => rfl
  | some e => by_cases hx : is_expired e now = true <;> simp [hx]

theorem Inv_mk_empty {cap : Int} (h : 1 ≤ cap) : Inv (KeyValueStore.mk_empty cap) :=
  ⟨WF_mk_empty cap, h, by simp [KeyValueStore.mk_empty]; omega⟩

theorem set_Inv {s : KeyValueStore} (h : Inv s) (now : TimePoint) (key val : String)
    (ttl : Option Int) :
    ∃ s1, set s now key val ttl = some s1 ∧ Inv s1 ∧ s1.capacity = s.capacity := by
  obtain ⟨hwf, hcap, hlen⟩ := h
  cases hf : find s.data key with
  | some e =>
    obtain ⟨s1, h1, h2, h3, h4, _⟩ := set_existing_spec hwf hf now val ttl
    refine ⟨s1, h1, ⟨h2, by rw [h4]; exact hcap, ?_⟩, h4⟩
    have : s1.data.length = s.data.length := by
      rw [h3]
      simp [assign]
    rw [this, h4]
    exact hlen
  | none =>
    by_cases hlt : (s.data.length : Int) < s.capacity
    · obtain ⟨s1, h1, h2, h3, h4, _⟩ := set_new_free_spec hwf hf hlt now val ttl
      refine ⟨s1, h1, ⟨h2, by rw [h4]; exact hcap, ?_⟩, h4⟩
      rw [h3, h4]
      simp only [List.length_cons, Nat.cast_add, Nat.cast_one]
      omega
    · have hdne : s.data ≠ [] := by
        intro hd
        rw [hd] at hlt
        simp at hlt
        omega
      obtain ⟨s1, b, h1, _, hb, h2, h3, h4, _⟩ :=
        set_new_full_spec hwf hf (by omega) (lru_ne_nil_of_data hwf hdne) now val ttl
      refine ⟨s1, h1, ⟨h2, by rw [h4]; exact hcap, ?_⟩, h4⟩
      have hl := length_erase_key hwf.keys_nodup hb
      rw [h3, h4]
      simp only [List.length_cons, Nat.cast_add, Nat.cast_one]
      omega

theorem step_Inv {s : KeyValueStore} (h : Inv s) (op : Op) :
    ∃ s1, step s op = some s1 ∧ Inv s1 ∧ s1.capacity = s.capacity := by
  cases op with
  | set now key val ttl => exact set_Inv h now key val ttl
  | get now key =>
    obtain ⟨s1, r, h1, h2, h3, h4, _⟩ := get_spec h.1 now key
    refine ⟨s1, ?_, ⟨h2, by rw [h4]; exact h.2.1, by rw [h3, h4]; exact h.2.2⟩, h4⟩
    simp only [step, h1, Option.map_some']
  | del key =>
    obtain ⟨s1, h1, h2, h3, _, h4, _⟩ := del_spec h.1 key
    refine ⟨s1, h1, ⟨h2, by rw [h4]; exact h.2.1, ?_⟩, h4⟩
    have hle : (erase_key s.data key).length ≤ s.data.length := List.length_filter_le _ _
    have := h.2.2
    rw [h3, h4]
    omega
  | «exists» now key =>
    refine ⟨s, ?_, h, rfl⟩
    simp only [step, exists_fst]
  | reap clk =>
    obtain ⟨s1, h1, h2, h3, _, h4, _⟩ := reaper_scan_spec h.1 clk
    refine ⟨s1, h1, ⟨h2, by rw [h4]; exact h.2.1, ?_⟩, h4⟩
    have hle := h3.length_le
    have := h.2.2
    rw [h4]
    omega

theorem run_Inv {s : KeyValueStore} (h : Inv s) (ops : List Op) :
    ∃ s1, run s ops = some s1 ∧ Inv s1 ∧ s1.capacity = s.capacity := by
  induction ops generalizing s with
  | nil => exact ⟨s, rfl, h, rfl⟩
  | cons op ops ih =>
    obtain ⟨s1, h1, h2, h3⟩ := step_Inv h op
    obtain ⟨s2, h4, h5, h6⟩ := ih h2
    refine ⟨s2, ?_, h5, h6.trans h3⟩
    simp only [run, h1]
    exact h4

theorem step_WF {s s1 : KeyValueStore} (hwf : WF s) {op : Op} (h : step s op = some s1) :
    WF s1 := by
  cases op with
  | set now key val ttl => exact set_WF hwf h
  | get now key =>
    obtain ⟨s2, r, h1, h2, _⟩ := get_spec hwf now key
    simp only [step, h1, Option.map_some', Option.some.injEq] at h
    rw [← h]
    exact h2
  | del key =>
    obtain ⟨s2, h1, h2, _⟩ := del_spec hwf key
    simp only [step, h1, Option.some.injEq] at h
    rw [← h]
    exact h2
  | «exists» now key =>
    simp only [step, exists_fst, Option.some.injEq] at h
    rw [← h]
    exact hwf
  | reap clk =>
    obtain ⟨s2, h1, h2, _⟩ := reaper_scan_spec hwf clk
    simp only [step, h1, Option.some.injEq] at h
    rw [← h]
    exact h2

theorem run_WF {s s1 : KeyValueStore} (hwf : WF s) {ops : List Op} (h : run s ops = some s1) :
    WF s1 := by
  induction ops generalizing s with
  | nil =>
    simp only [run, Option.some.injEq] at h
    rw [← h]
    exact hwf
  | cons op ops ih =>
    cases hs : step s op with
    | none => simp [run, hs] at h
    | some s2 =>
      simp only [run, hs] at h
      exact ih (step_WF hwf hs) h

/-! ## Set always stores the entry -/

theorem set_defined {s : KeyValueStore} (hwf : WF s) (hcap : 1 ≤ s.capacity)
    (now : TimePoint) (key val : String) (ttl : Option Int) :
    ∃ s1 pos, set s now key val ttl = some s1 ∧ WF s1
      ∧ find s1.data key
          = some { value := val, expires_at := expiry_of now ttl, lru_pos := pos } := by
  cases hf : find s.data key with
  | some e =>
    obtain ⟨s1, h1, h2, h3, _⟩ := set_existing_spec hwf hf now val ttl
    refine ⟨s1, e.lru_pos, h1, h2, ?_⟩
    rw [h3, find_assign, if_pos rfl, hf]
    rfl
  | none =>
    by_cases hlt : (s.data.length : Int) < s.capacity
    · obtain ⟨s1, h1, h2, h3, _⟩ := set_new_free_spec hwf hf hlt now val ttl
      refine ⟨s1, s.next_id, h1, h2, ?_⟩
      rw [h3]
      simp [find]
    · have hdne : s.data ≠ [] := by
        intro hd
        rw [hd] at hlt
        simp at hlt
        omega
      obtain ⟨s1, b, h1, _, _, h2, h3, _⟩ :=
        set_new_full_spec hwf hf (by omega) (lru_ne_nil_of_data hwf hdne) now val ttl
      refine ⟨s1, s.next_id, h1, h2, ?_⟩
      rw [h3]
      simp [find]

theorem get_hit {s : KeyValueStore} (hwf : WF s) {now : TimePoint} {key : String} {e : Entry}
    (hf : find s.data key = some e) (hx : is_expired e now = false) :
    ∃ s1, get s now key = some (s1, some e.value) := by
  obtain ⟨s1, h1, _⟩ := move_to_front_spec hwf hf
  refine ⟨s1, ?_⟩
  unfold get
  rw [hf]
  simp only [hx, h1, Bool.false_eq_true, if_false]

theorem get_miss_expired {s : KeyValueStore} {now : TimePoint} {key : String} {e : Entry}
    (hf : find s.data key = some e) (hx : is_expired e now = true) :
    get s now key = some (s, none) := by
  unfold get
  rw [hf]
  simp only [hx, if_true]

theorem exists_expired {s : KeyValueStore} {now : TimePoint} {key : String} {e : Entry}
    (hf : find s.data key = some e) (hx : is_expired e now = true) :
    «exists» s now key = (s, false) := by
  unfold «exists»
  rw [hf]
  simp only [hx, if_true]

theorem exists_live {s : KeyValueStore} {now : TimePoint} {key : String} {e : Entry}
    (hf : find s.data key = some e) (hx : is_expired e now = false) :
    «exists» s now key = (s, true) := by
  unfold «exists»
  rw [hf]
  simp only [hx, Bool.false_eq_true, if_false]

theorem exists_absent {s : KeyValueStore} {now : TimePoint} {key : String}
    (hf : find s.data key = none) : «exists» s now key = (s, false) := by
  unfold «exists»
  rw [hf]

/-! ## The recency order and the history of touches -/

theorem touchOrdered_nil (T : List String) : TouchOrdered [] T :=
  ⟨by simp, List.Pairwise.nil⟩

theorem touchOrdered_sublist {l l1 T : List String} (h : TouchOrdered l T)
    (hs : l1.Sublist l) : TouchOrdered l1 T :=
  ⟨fun k hk => h.1 k (hs.subset hk), h.2.sublist hs⟩

theorem touchOrdered_cons {l l1 T : List String} {key : String} (h : TouchOrdered l T)
    (hs : l1.Sublist l) (hk : key ∉ l1) : TouchOrdered (key :: l1) (key :: T) := by
  have h1 := touchOrdered_sublist h hs
  constructor
  · intro k hmem
    rcases List.mem_cons.mp hmem with h2 | h2
    · rw [h2]
      exact List.mem_cons_self _ _
    · exact List.mem_cons_of_mem _ (h1.1 k h2)
  · rw [List.pairwise_cons]
    constructor
    · intro b hb
      have hne : key ≠ b := fun hc => hk (hc ▸ hb)
      rw [List.indexOf_cons_self, List.indexOf_cons_ne _ hne]
      exact Nat.succ_pos _
    · refine h1.2.imp_of_mem ?_
      intro a b ha hb hab
      have hna : key ≠ a := fun hc => hk (hc ▸ ha)
      have hnb : key ≠ b := fun hc => hk (hc ▸ hb)
      rw [List.indexOf_cons_ne _ hna, List.indexOf_cons_ne _ hnb]
      exact Nat.succ_lt_succ hab

theorem filter_ne_not_mem (l : List String) (key : String) :
    key ∉ l.filter (fun a => !decide (a = key)) := by
  intro hc
  have := (List.mem_filter.mp hc).2
  simp at this

theorem set_lru_keys {s s1 : KeyValueStore} (hwf : WF s) {now : TimePoint} {key val : String}
    {ttl : Option Int} (h : set s now key val ttl = some s1) :
    ∃ l1, lru_keys s1 = key :: l1 ∧ l1.Sublist (lru_keys s) ∧ key ∉ l1 := by
  cases hf : find s.data key with
  | some e =>
    obtain ⟨s2, h1, _, _, _, _, h6⟩ := set_existing_spec hwf hf now val ttl
    rw [h1] at h
    cases h
    exact ⟨_, h6, List.filter_sublist _, filter_ne_not_mem _ _⟩
  | none =>
    have hk : key ∉ lru_keys s := not_mem_lru_keys hwf (find_eq_none_iff.mp hf)
    by_cases hlt : (s.data.length : Int) < s.capacity
    · obtain ⟨s2, h1, _, _, _, h5⟩ := set_new_free_spec hwf hf hlt now val ttl
      rw [h1] at h
      cases h
      exact ⟨_, h5, List.Sublist.refl _, hk⟩
    · by_cases hne : s.lru_order = []
      · exfalso
        unfold set at h
        have hge : (s.data.length : Int) ≥ s.capacity := by omega
        simp only [hf, Option.isSome_none, Bool.false_eq_true, if_false, hge, if_true,
          evict_lru, hne, List.getLast?_nil] at h
        cases h
      · obtain ⟨s2, b, h1, _, _, _, _, _, h7⟩ :=
          set_new_full_spec hwf hf (by omega) hne now val ttl
        rw [h1] at h
        cases h
        exact ⟨_, h7, List.dropLast_sublist _, fun hc => hk ((List.dropLast_sublist _).subset hc)⟩

theorem step_touchOrdered {s s1 : KeyValueStore} (hwf : WF s) {op : Op} {T : List String}
    (h : step s op = some s1) (ht : TouchOrdered (lru_keys s) T) :
    TouchOrdered (lru_keys s1) ((touched s op).toList ++ T) := by
  cases op with
  | set now key val ttl =>
    obtain ⟨l1, h1, h2, h3⟩ := set_lru_keys hwf h
    rw [h1]
    exact touchOrdered_cons ht h2 h3
  | get now key =>
    obtain ⟨s2, r, h1, _, _, _, _, h6⟩ := get_spec hwf now key
    simp only [step, h1, Option.map_some', Option.some.injEq] at h
    subst h
    rcases h6 with ⟨hr, hs, _⟩ | ⟨e, _, _, hr, hl⟩
    · subst hr
      simp only [touched, h1, Option.toList, List.nil_append]
      rw [hs]
      exact ht
    · subst hr
      simp only [touched, h1, Option.toList, List.singleton_append]
      rw [hl]
      exact touchOrdered_cons ht (List.filter_sublist _) (filter_ne_not_mem _ _)
  | del key =>
    obtain ⟨s2, h1, _, _, h4, _⟩ := del_spec hwf key
    simp only [step, h1, Option.some.injEq] at h
    subst h
    rw [h4]
    exact touchOrdered_sublist ht (List.filter_sublist _)
  | «exists» now key =>
    simp only [step, exists_fst, Option.some.injEq] at h
    subst h
    exact ht
  | reap clk =>
    obtain ⟨s2, h1, _, _, h4, _⟩ := reaper_scan_spec hwf clk
    simp only [step, h1, Option.some.injEq] at h
    subst h
    exact touchOrdered_sublist ht h4

theorem run_touchOrdered {s s1 : KeyValueStore} (hwf : WF s) {ops : List Op} {T : List String}
    (h : run s ops = some s1) (ht : TouchOrdered (lru_keys s) T) :
    TouchOrdered (lru_keys s1) (touches s T ops) := by
  induction ops generalizing s T with
  | nil =>
    simp only [run, Option.some.injEq] at h
    subst h
    exact ht
  | cons op ops ih =>
    cases hs : step s op with
    | none => simp [run, hs] at h
    | some s2 =>
      simp only [run, hs] at h
      simp only [touches, hs]
      exact ih (step_WF hwf hs) h (step_touchOrdered hwf hs ht)

theorem pairwise_last {R : String → String → Prop} {l : List String} {b : String}
    (hp : l.Pairwise R) (hl : l.getLast? = some b) {k : String}
    (hk : k ∈ l) (hne : k ≠ b) : R k b := by
  have hl2 : l.dropLast ++ [b] = l := List.dropLast_append_getLast? b hl
  rw [← hl2] at hp hk
  rw [List.pairwise_append] at hp
  rcases List.mem_append.mp hk with h1 | h1
  · exact hp.2.2 k h1 b (List.mem_singleton_self b)
  · exact absurd (List.mem_singleton.mp h1) hne

/-! ## Filling an empty cache with distinct keys -/

theorem run_append (s : KeyValueStore) (ops1 ops2 : List Op) :
    run s (ops1 ++ ops2) = (run s ops1).bind (fun s1 => run s1 ops2) := by
  induction ops1 generalizing s with
  | nil => rfl
  | cons op ops ih =>
    cases hs : step s op with
    | none => simp [run, hs]
    | some s2 =>
      simp only [List.cons_append, run, hs]
      exact ih s2

theorem run_set_ops (kvs : List (TimePoint × String × String)) :
    ∀ s : KeyValueStore, WF s → (∀ p ∈ s.data, p.2.expires_at = none) →
      (kvs.map (fun p => p.2.1)).Nodup →
      (∀ k ∈ kvs.map (fun p => p.2.1), k ∉ stored_keys s) →
      ((s.data.length : Int) + kvs.length ≤ s.capacity) →
      ∃ s1, run s (set_ops kvs) = some s1 ∧ WF s1
        ∧ (∀ p ∈ s1.data, p.2.expires_at = none)
        ∧ lru_keys s1 = (kvs.map (fun p => p.2.1)).reverse ++ lru_keys s
        ∧ stored_keys s1 = (kvs.map (fun p => p.2.1)).reverse ++ stored_keys s
        ∧ s1.capacity = s.capacity := by
  induction kvs with
  | nil =>
    intro s hwf hne _ _ _
    exact ⟨s, rfl, hwf, hne, by simp, by simp, rfl⟩
  | cons p rest ih =>
    intro s hwf hne hnd hfresh hlen
    obtain ⟨t, k, v⟩ := p
    simp only [List.map_cons, List.nodup_cons] at hnd
    have hk : k ∉ stored_keys s := hfresh k (by simp)
    have hf : find s.data k = none := find_eq_none_iff.mpr hk
    have hlt : (s.data.length : Int) < s.capacity := by
      simp only [List.length_cons, Nat.cast_add, Nat.cast_one] at hlen
      omega
    obtain ⟨s0, h1, h2, h3, h4, h5⟩ := set_new_free_spec hwf hf hlt t v none
    have hne0 : ∀ q ∈ s0.data, q.2.expires_at = none := by
      intro q hq
      rw [h3] at hq
      rcases List.mem_cons.mp hq with h6 | h6
      · rw [h6]
        rfl
      · exact hne q h6
    have hst0 : stored_keys s0 = k :: stored_keys s := by
      unfold stored_keys
      rw [h3, List.map_cons]
    have hfresh0 : ∀ k1 ∈ rest.map (fun p => p.2.1), k1 ∉ stored_keys s0 := by
      intro k1 hk1 hc
      rw [hst0] at hc
      rcases List.mem_cons.mp hc with h6 | h6
      · exact hnd.1 (h6 ▸ hk1)
      · exact hfresh k1 (by simp only [List.map_cons]; exact List.mem_cons_of_mem _ hk1) h6
    have hlen0 : (s0.data.length : Int) + rest.length ≤ s0.capacity := by
      rw [h3, h4]
      simp only [List.length_cons, Nat.cast_add, Nat.cast_one] at hlen ⊢
      omega
    obtain ⟨s1, e1, e2, e3, e4, e5, e6⟩ := ih s0 h2 hne0 hnd.2 hfresh0 hlen0
    refine ⟨s1, ?_, e2, e3, ?_, ?_, e6.trans h4⟩
    · simp only [set_ops, List.map_cons, run, step, h1]
      exact e1
    · rw [e4, h5]
      simp
    · rw [e5, hst0]
      simp

theorem find_of_mem_stored {s : KeyValueStore} {k : String} (h : k ∈ stored_keys s) :
    ∃ e, find s.data k = some e := by
  cases hf : find s.data k with
  | none => exact absurd h (find_eq_none_iff.mp hf)
  | some e => exact ⟨e, rfl⟩

/-! ## Expiry, deletion and the reaper pass in detail -/

theorem is_expired_iff (e : Entry) (now : TimePoint) :
    is_expired e now = true ↔ ∃ t, e.expires_at = some t ∧ t < now := by
  cases he : e.expires_at with
  | none => simp [is_expired, he]
  | some t0 => simp [is_expired, he]

theorem is_expired_false_iff (e : Entry) (now : TimePoint) :
    is_expired e now = false ↔ ∀ t, e.expires_at = some t → ¬ t < now := by
  rw [← Bool.not_eq_true, is_expired_iff]
  constructor
  · intro h t ht hlt
    exact h ⟨t, ht, hlt⟩
  · rintro h ⟨t, ht, hlt⟩
    exact h t ht hlt

theorem reaper_visit_kept (now : TimePoint) :
    ∀ (todo : List (String × Entry)) (i : Nat) (lru : List Node)
      (kept : List (String × Entry)) (lru1 : List Node),
      reaper_visit (fun _ => now) i todo lru = some (kept, lru1) →
      kept = todo.filter (fun p => !is_expired p.2 now) := by
  intro todo
  induction todo with
  | nil =>
    intro i lru kept lru1 h
    simp only [reaper_visit, Option.some.injEq, Prod.mk.injEq] at h
    rw [← h.1]
    rfl
  | cons p rest ih =>
    intro i lru kept lru1 h
    obtain ⟨k, e⟩ := p
    by_cases hx : is_expired e now = true
    · simp only [reaper_visit, hx, if_true] at h
      cases hl : list_erase lru e.lru_pos with
      | none => simp [hl] at h
      | some lru2 =>
        simp only [hl] at h
        rw [ih (i + 1) lru2 kept lru1 h]
        simp [List.filter_cons, hx]
    · simp only [reaper_visit, hx] at h
      cases hr : reaper_visit (fun _ => now) (i + 1) rest lru with
      | none => simp [hr] at h
      | some q =>
        obtain ⟨kept2, lru2⟩ := q
        simp only [hr, Bool.false_eq_true, if_false, Option.some.injEq, Prod.mk.injEq] at h
        rw [← h.1, ih (i + 1) lru kept2 lru2 hr]
        simp [List.filter_cons, hx]

theorem find_filter (q : Entry → Bool) :
    ∀ (data : List (String × Entry)), (data.map Prod.fst).Nodup → ∀ k : String,
      find (data.filter (fun p => q p.2)) k
        = (find data k).bind (fun e => if q e = true then some e else none) := by
  intro data
  induction data with
  | nil =>
    intro _ k
    rfl
  | cons p rest ih =>
    intro hnd k
    obtain ⟨k0, e0⟩ := p
    simp only [List.map_cons, List.nodup_cons] at hnd
    by_cases hq : q e0 = true
    · have h1 : ((k0, e0) :: rest).filter (fun p => q p.2)
          = (k0, e0) :: rest.filter (fun p => q p.2) := by
        simp [List.filter_cons, hq]
      rw [h1]
      by_cases hk : k0 = k
      · simp [find, hk, hq]
      · simp only [find, hk, if_false]
        exact ih hnd.2 k
    · have h1 : ((k0, e0) :: rest).filter (fun p => q p.2) = rest.filter (fun p => q p.2) := by
        simp [List.filter_cons, hq]
      rw [h1, ih hnd.2 k]
      by_cases hk : k0 = k
      · have hnone : find rest k = none := by
          rw [find_eq_none_iff, ← hk]
          exact hnd.1
        simp [find, hk, hq, hnone]
      · simp only [find, hk, if_false]

theorem sublist_eq_filter {l1 l : List String} (hs : l1.Sublist l) (hnd : l.Nodup) :
    l1 = l.filter (fun x => decide (x ∈ l1)) := by
  induction hs with
  | slnil => rfl
  | cons a hs ih =>
    rename_i l2 l3
    rw [List.nodup_cons] at hnd
    have ha : a ∉ l2 := fun hc => hnd.1 (hs.subset hc)
    rw [List.filter_cons]
    simp only [ha, decide_False, Bool.false_eq_true, if_false]
    exact ih hnd.2
  | cons₂ a hs ih =>
    rename_i l2 l3
    rw [List.nodup_cons] at hnd
    rw [List.filter_cons]
    simp only [List.mem_cons, true_or, decide_True, if_true]
    congr 1
    have hcongr : l3.filter (fun x => decide (x = a ∨ x ∈ l2))
        = l3.filter (fun x => decide (x ∈ l2)) := by
      apply List.filter_congr
      intro x hx
      have hxa : x ≠ a := fun hc => hnd.1 (hc ▸ hx)
      simp [hxa]
    rw [hcongr]
    exact ih hnd.2

theorem set_find {s0 s : KeyValueStore} (hwf : WF s0) {now : TimePoint} {key val : String}
    {ttl : Option Int} (h : set s0 now key val ttl = some s) :
    ∃ pos, find s.data key
      = some { value := val, expires_at := expiry_of now ttl, lru_pos := pos } := by
  cases hf : find s0.data key with
  | some e =>
    obtain ⟨s2, h1, _, h3, _⟩ := set_existing_spec hwf hf now val ttl
    rw [h1] at h
    cases h
    refine ⟨e.lru_pos, ?_⟩
    rw [h3, find_assign, if_pos rfl, hf]
    rfl
  | none =>
    by_cases hlt : (s0.data.length : Int) < s0.capacity
    · obtain ⟨s2, h1, _, h3, _⟩ := set_new_free_spec hwf hf hlt now val ttl
      rw [h1] at h
      cases h
      refine ⟨s0.next_id, ?_⟩
      rw [h3]
      simp [find]
    · by_cases hne : s0.lru_order = []
      · exfalso
        unfold set at h
        have hge : (s0.data.length : Int) ≥ s0.capacity := by omega
        simp only [hf, Option.isSome_none, Bool.false_eq_true, if_false, hge, if_true,
          evict_lru, hne, List.getLast?_nil] at h
        cases h
      · obtain ⟨s2, b, h1, _, _, _, h3, _⟩ :=
          set_new_full_spec hwf hf (by omega) hne now val ttl
        rw [h1] at h
        cases h
        refine ⟨s0.next_id, ?_⟩
        rw [h3]
        simp [find]

/-! ## The protocol layer -/

theorem digit_not_space {c : Char} (h : c.isDigit = true) : is_space c = false := by
  cases hs : is_space c with
  | false => rfl
  | true =>
    exfalso
    simp only [is_space, Bool.or_eq_true, decide_eq_true_eq] at hs
    rcases hs with ((((hs | hs) | hs) | hs) | hs) | hs <;>
      (subst hs; revert h; decide)

theorem digit_ne_minus {c : Char} (h : c.isDigit = true) : c ≠ '-' := by
  intro hc
  subst hc
  revert h
  decide

theorem digit_ne_plus {c : Char} (h : c.isDigit = true) : c ≠ '+' := by
  intro hc
  subst hc
  revert h
  decide

theorem stoi_of_head {c : Char} (t : List Char) (h : is_space c = false) :
    stoi (String.mk (c :: t)) = stoi_signed (c :: t) := by
  unfold stoi
  have : (String.mk (c :: t)).data = c :: t := rfl
  rw [this, List.dropWhile_cons_of_neg (by simp [h])]

theorem stoi_signed_plain (ds : List Char) (hne : ds ≠ [])
    (hd : ∀ c ∈ ds, c.isDigit = true)
    (hlo : -2147483648 ≤ ((digits_value ds 0 : Nat) : Int))
    (hhi : ((digits_value ds 0 : Nat) : Int) ≤ 2147483647) :
    stoi_signed ds = StoiResult.value ((digits_value ds 0 : Nat) : Int) := by
  obtain ⟨d, t, rfl⟩ := List.exists_cons_of_ne_nil hne
  have hdd := hd d (List.mem_cons_self _ _)
  have htw : (d :: t).takeWhile Char.isDigit = d :: t := List.takeWhile_eq_self_iff.mpr hd
  have h1 := digit_ne_minus hdd
  have h2 := digit_ne_plus hdd
  have hr : ¬ (((digits_value (d :: t) 0 : Nat) : Int) < -2147483648
      ∨ 2147483647 < ((digits_value (d :: t) 0 : Nat) : Int)) := by omega
  simp only [stoi_signed, List.head?_cons, Option.some.injEq, h1, h2, or_self, if_false, htw,
    decide_False, Bool.false_eq_true, hr]
  simp

theorem stoi_signed_plus (ds : List Char) (hne : ds ≠ [])
    (hd : ∀ c ∈ ds, c.isDigit = true)
    (hhi : ((digits_value ds 0 : Nat) : Int) ≤ 2147483647) :
    stoi_signed ('+' :: ds) = StoiResult.value ((digits_value ds 0 : Nat) : Int) := by
  have htw : ds.takeWhile Char.isDigit = ds := List.takeWhile_eq_self_iff.mpr hd
  have hr : ¬ (((digits_value ds 0 : Nat) : Int) < -2147483648
      ∨ 2147483647 < ((digits_value ds 0 : Nat) : Int)) := by omega
  have hpm : ¬ ('+' = '-') := by decide
  simp only [stoi_signed, List.head?_cons, Option.some.injEq, hpm, or_true, if_true,
    List.tail_cons, htw, hne, if_false, decide_False, Bool.false_eq_true, hr]

theorem stoi_signed_minus (ds : List Char) (hne : ds ≠ [])
    (hd : ∀ c ∈ ds, c.isDigit = true)
    (hlo : -2147483648 ≤ -((digits_value ds 0 : Nat) : Int)) :
    stoi_signed ('-' :: ds) = StoiResult.value (-((digits_value ds 0 : Nat) : Int)) := by
  have htw : ds.takeWhile Char.isDigit = ds := List.takeWhile_eq_self_iff.mpr hd
  have hr : ¬ (-((digits_value ds 0 : Nat) : Int) < -2147483648
      ∨ 2147483647 < -((digits_value ds 0 : Nat) : Int)) := by omega
  simp only [stoi_signed, List.head?_cons, true_or, if_true,
    List.tail_cons, htw, hne, if_false, decide_True, hr]

theorem stoi_decimal (sign ds : List Char)
    (hs : sign = [] ∨ sign = ['+'] ∨ sign = ['-']) (hne : ds ≠ [])
    (hd : ∀ c ∈ ds, c.isDigit = true)
    (hlo : -2147483648 ≤ decimal_value sign ds) (hhi : decimal_value sign ds ≤ 2147483647) :
    stoi (String.mk (sign ++ ds)) = StoiResult.value (decimal_value sign ds) := by
  rcases hs with hs | hs | hs
  · subst hs
    obtain ⟨d, t, rfl⟩ := List.exists_cons_of_ne_nil hne
    have hdd := hd d (List.mem_cons_self _ _)
    have hv : decimal_value [] (d :: t) = ((digits_value (d :: t) 0 : Nat) : Int) := by
      simp [decimal_value]
    rw [hv] at hlo hhi ⊢
    rw [List.nil_append, stoi_of_head t (digit_not_space hdd)]
    exact stoi_signed_plain (d :: t) hne hd hlo hhi
  · subst hs
    have hv : decimal_value ['+'] ds = ((digits_value ds 0 : Nat) : Int) := by
      have hpm : ¬ (['+'] = ['-']) := by decide
      simp only [decimal_value, hpm, if_false]
    rw [hv] at hlo hhi ⊢
    have hsp : is_space '+' = false := by decide
    rw [List.singleton_append, stoi_of_head ds hsp]
    exact stoi_signed_plus ds hne hd hhi
  · subst hs
    have hv : decimal_value ['-'] ds = -((digits_value ds 0 : Nat) : Int) := by
      simp only [decimal_value, if_true]
    rw [hv] at hlo hhi ⊢
    have hsp : is_space '-' = false := by decide
    rw [List.singleton_append, stoi_of_head ds hsp]
    exact stoi_signed_minus ds hne hd hlo

theorem append_newline_eq_iff (a b : String) : a ++ "\n" = b ++ "\n" ↔ a = b := by
  constructor
  · intro h
    rw [String.ext_iff, String.data_append, String.data_append] at h
    exact String.ext (List.append_cancel_right h)
  · intro h
    rw [h]

/-! ## A reaper pass under a moving clock -/

theorem is_expired_false_of_le {e : Entry} {t1 t2 : TimePoint} (h : t1 ≤ t2)
    (hx : is_expired e t2 = false) : is_expired e t1 = false := by
  rw [is_expired_false_iff] at hx ⊢
  intro t ht hlt
  exact hx t ht (lt_of_lt_of_le hlt h)

theorem reaper_visit_members (clk : Nat → TimePoint) :
    ∀ (todo : List (String × Entry)) (i : Nat) (lru : List Node)
      (kept : List (String × Entry)) (lru1 : List Node),
      reaper_visit clk i todo lru = some (kept, lru1) →
      (∀ p ∈ kept, ∃ j, is_expired p.2 (clk j) = false)
        ∧ (∀ p ∈ todo, (∀ j, is_expired p.2 (clk j) = false) → p ∈ kept) := by
  intro todo
  induction todo with
  | nil =>
    intro i lru kept lru1 h
    simp only [reaper_visit, Option.some.injEq, Prod.mk.injEq] at h
    rw [← h.1]
    simp
  | cons p rest ih =>
    intro i lru kept lru1 h
    obtain ⟨k, e⟩ := p
    by_cases hx : is_expired e (clk i) = true
    · simp only [reaper_visit, hx, if_true] at h
      cases hl : list_erase lru e.lru_pos with
      | none => simp [hl] at h
      | some lru2 =>
        simp only [hl] at h
        obtain ⟨h1, h2⟩ := ih (i + 1) lru2 kept lru1 h
        refine ⟨h1, ?_⟩
        intro q hq hall
        rcases List.mem_cons.mp hq with hq1 | hq1
        · exfalso
          have := hall i
          rw [hq1] at this
          simp only at this
          rw [hx] at this
          cases this
        · exact h2 q hq1 hall
    · have hx2 : is_expired e (clk i) = false := by simpa using hx
      simp only [reaper_visit, hx] at h
      cases hr : reaper_visit clk (i + 1) rest lru with
      | none => simp [hr] at h
      | some q0 =>
        obtain ⟨kept2, lru2⟩ := q0
        simp only [hr, Bool.false_eq_true, if_false, Option.some.injEq, Prod.mk.injEq] at h
        obtain ⟨h1, h2⟩ := ih (i + 1) lru kept2 lru2 hr
        rw [← h.1]
        constructor
        · intro q hq
          rcases List.mem_cons.mp hq with hq1 | hq1
          · rw [hq1]
            exact ⟨i, hx2⟩
          · exact h1 q hq1
        · intro q hq hall
          rcases List.mem_cons.mp hq with hq1 | hq1
          · rw [hq1]
            exact List.mem_cons_self _ _
          · exact List.mem_cons_of_mem _ (h2 q hq1 hall)

theorem reaper_visit_positions (clk : Nat → TimePoint) :
    ∀ (todo : List (String × Entry)) (i : Nat) (lru : List Node)
      (kept : List (String × Entry)) (lru1 : List Node),
      reaper_visit clk i todo lru = some (kept, lru1) →
      kept = ((todo.enumFrom i).filter (fun ip => !is_expired ip.2.2 (clk ip.1))).map Prod.snd := by
  intro todo
  induction todo with
  | nil =>
    intro i lru kept lru1 h
    simp only [reaper_visit, Option.some.injEq, Prod.mk.injEq] at h
    rw [← h.1]
    rfl
  | cons p rest ih =>
    intro i lru kept lru1 h
    obtain ⟨k, e⟩ := p
    by_cases hx : is_expired e (clk i) = true
    · simp only [reaper_visit, hx, if_true] at h
      cases hl : list_erase lru e.lru_pos with
      | none => simp [hl] at h
      | some lru2 =>
        simp only [hl] at h
        rw [ih (i + 1) lru2 kept lru1 h]
        simp [List.enumFrom_cons, List.filter_cons, hx]
    · simp only [reaper_visit, hx] at h
      cases hr : reaper_visit clk (i + 1) rest lru with
      | none => simp [hr] at h
      | some q0 =>
        obtain ⟨kept2, lru2⟩ := q0
        simp only [hr, Bool.false_eq_true, if_false, Option.some.injEq, Prod.mk.injEq] at h
        rw [← h.1, ih (i + 1) lru kept2 lru2 hr]
        simp [List.enumFrom_cons, List.filter_cons, hx]

theorem demo_clock_lo (i : Nat) : (3000000004 : TimePoint) ≤ demo_clock i := by
  unfold demo_clock
  by_cases h : i = 0
  · rw [if_pos h]
  · rw [if_neg h]
    decide

theorem demo_clock_hi (i : Nat) : demo_clock i ≤ (3000000008 : TimePoint) := by
  unfold demo_clock
  by_cases h : i = 0
  · rw [if_pos h]
    decide
  · rw [if_neg h]

theorem run_demo_moving :
    run (KeyValueStore.mk_empty 2)
      [.set 7 "a" "1" (some 3), .set 1000000005 "b" "2" (some 2)] = some demo_moving := by
  decide

theorem WF_demo_moving : WF demo_moving := run_WF (WF_mk_empty 2) run_demo_moving

theorem reaper_scan_demo_moving :
    reaper_scan demo_moving demo_clock = some demo_moving_after := by
  decide

/-! ## Demonstration states are reachable -/

theorem run_demo_one : run (KeyValueStore.mk_empty 2) (demo_ops.take 1) = some demo_one := by
  decide

theorem run_demo_full : run (KeyValueStore.mk_empty 2) (demo_ops.take 3) = some demo_full := by
  decide

theorem WF_demo_one : WF demo_one := run_WF (WF_mk_empty 2) run_demo_one

theorem WF_demo_full : WF demo_full := run_WF (WF_mk_empty 2) run_demo_full

/-! ## The claims -/

/-- C1 (capacity invariant): for every capacity at least 1 and every finite
sequence of set, get, del, exists and reaper-scan operations, with any keys,
values, TTLs and clock readings, applied to the empty cache, every prefix of the
sequence runs to a state, and that state stores at most `capacity` entries. -/
theorem capacity_invariant (cap : Int) (hcap : 1 ≤ cap) (ops : List Op) (n : Nat) :
    ∃ s, run (KeyValueStore.mk_empty cap) (ops.take n) = some s
      ∧ s.capacity = cap ∧ (s.data.length : Int) ≤ cap := by
  obtain ⟨s, h1, h2, h3⟩ := run_Inv (Inv_mk_empty hcap) (ops.take n)
  have h4 : s.capacity = cap := h3
  refine ⟨s, h1, h4, ?_⟩
  rw [← h4]
  exact h2.2.2

theorem capacity_invariant_witness :
    ∃ s, run (KeyValueStore.mk_empty 2) (demo_ops.take 7) = some s
      ∧ s.capacity = 2 ∧ (s.data.length : Int) ≤ 2 :=
  capacity_invariant 2 (by decide) demo_ops 7

/-- C2 (structural invariant I1 + I3): in every state reachable from the empty
cache by set, get, del, exists and reaper-scan operations, the recency order and
the map have the same keys, neither has a duplicate, no two nodes of the recency
order share an identity, and the position stored in each entry is a node of the
recency order, the only one with that identity, and it holds the entry's key. -/
theorem structural_invariant (cap : Int) (ops : List Op) (s : KeyValueStore)
    (h : run (KeyValueStore.mk_empty cap) ops = some s) :
    (∀ k, k ∈ lru_keys s ↔ k ∈ stored_keys s)
      ∧ (lru_keys s).Nodup ∧ (stored_keys s).Nodup
      ∧ (s.lru_order.map Node.id).Nodup
      ∧ ∀ k e, find s.data k = some e →
          ∃ n ∈ s.lru_order, n.id = e.lru_pos ∧ n.first = k
            ∧ ∀ m ∈ s.lru_order, m.id = e.lru_pos → m = n := by
  have hwf : WF s := run_WF (WF_mk_empty cap) h
  refine ⟨?_, hwf.lru_keys_nodup, hwf.keys_nodup, hwf.ids_nodup, ?_⟩
  · intro k
    constructor
    · intro hk
      by_contra hc
      exact not_mem_lru_keys hwf hc hk
    · exact mem_lru_keys hwf
  · intro k e hf
    obtain ⟨n, hn, h1, h2⟩ := hwf.pos_live k e (find_some_mem hf)
    refine ⟨n, hn, h1, h2, ?_⟩
    intro m hm hmid
    exact node_eq_of_id hwf.ids_nodup hm hn (hmid.trans h1.symm)

theorem structural_invariant_witness :
    (∀ k, k ∈ lru_keys demo_full ↔ k ∈ stored_keys demo_full)
      ∧ (lru_keys demo_full).Nodup ∧ (stored_keys demo_full).Nodup
      ∧ (demo_full.lru_order.map Node.id).Nodup
      ∧ ∀ k e, find demo_full.data k = some e →
          ∃ n ∈ demo_full.lru_order, n.id = e.lru_pos ∧ n.first = k
            ∧ ∀ m ∈ demo_full.lru_order, m.id = e.lru_pos → m = n :=
  structural_invariant 2 (demo_ops.take 3) demo_full run_demo_full

/-- C3 (eviction on a full cache): on a well-formed store and for a key that is
not stored, when the number of entries equals the capacity (at least 1), set
succeeds, removes exactly the last key of the recency order, which was stored and
is not the new key, keeps every other entry as it was, stores the new entry, puts
the new key in front of the remaining recency order, and the number of entries
still equals the capacity; when the number of entries is below the capacity, set
removes nothing, every other entry is as it was, the new key is put in front of
the whole recency order, and the number of entries grows by one. -/
theorem set_new_key_eviction (s : KeyValueStore) (hwf : WF s) (now : TimePoint)
    (key val : String) (ttl : Option Int) (hnew : find s.data key = none) :
    ((s.data.length : Int) = s.capacity → 1 ≤ s.capacity →
      ∃ s1 b, set s now key val ttl = some s1
        ∧ (lru_keys s).getLast? = some b ∧ b ∈ stored_keys s ∧ b ≠ key
        ∧ find s1.data b = none
        ∧ (∀ k, k ≠ b → k ≠ key → find s1.data k = find s.data k)
        ∧ find s1.data key
            = some { value := val, expires_at := expiry_of now ttl, lru_pos := s.next_id }
        ∧ stored_keys s1 = key :: (stored_keys s).filter (fun a => !decide (a = b))
        ∧ lru_keys s1 = key :: (lru_keys s).dropLast
        ∧ s1.capacity = s.capacity ∧ (s1.data.length : Int) = s1.capacity)
    ∧ ((s.data.length : Int) < s.capacity →
      ∃ s1, set s now key val ttl = some s1
        ∧ (∀ k, k ≠ key → find s1.data k = find s.data k)
        ∧ find s1.data key
            = some { value := val, expires_at := expiry_of now ttl, lru_pos := s.next_id }
        ∧ stored_keys s1 = key :: stored_keys s
        ∧ lru_keys s1 = key :: lru_keys s
        ∧ s1.capacity = s.capacity ∧ s1.data.length = s.data.length + 1) := by
  have hk : key ∉ stored_keys s := find_eq_none_iff.mp hnew
  constructor
  · intro hfull hcap
    have hdne : s.data ≠ [] := by
      intro hd
      rw [hd] at hfull
      simp at hfull
      omega
    obtain ⟨s1, b, h1, h2, h3, h4, h5, h6, h7⟩ :=
      set_new_full_spec hwf hnew (by omega) (lru_ne_nil_of_data hwf hdne) now val ttl
    have hbk : b ≠ key := fun hc => hk (hc ▸ h3)
    have hkb : ¬ key = b := fun hc => hbk hc.symm
    refine ⟨s1, b, h1, h2, h3, hbk, ?_, ?_, ?_, ?_, h7, h6, ?_⟩
    · rw [h5]
      simp only [find, hkb, if_false]
      rw [find_erase_key, if_pos rfl]
    · intro k hkb2 hkk
      have hkk2 : ¬ key = k := fun hc => hkk hc.symm
      rw [h5]
      simp only [find, hkk2, if_false]
      rw [find_erase_key, if_neg hkb2]
    · rw [h5]
      simp [find]
    · unfold stored_keys
      rw [h5, List.map_cons, map_fst_erase_key]
    · have hl := length_erase_key hwf.keys_nodup h3
      rw [h6, h5]
      simp only [List.length_cons, Nat.cast_add, Nat.cast_one]
      omega
  · intro hlt
    obtain ⟨s1, h1, _, h3, h4, h5⟩ := set_new_free_spec hwf hnew hlt now val ttl
    refine ⟨s1, h1, ?_, ?_, ?_, h5, h4, ?_⟩
    · intro k hkk
      have hkk2 : ¬ key = k := fun hc => hkk hc.symm
      rw [h3]
      simp only [find, hkk2, if_false]
    · rw [h3]
      simp [find]
    · unfold stored_keys
      rw [h3, List.map_cons]
    · rw [h3]
      rfl

theorem set_new_key_eviction_witness :
    (∃ s1 b, set demo_full 5 "c" "3" none = some s1
        ∧ (lru_keys demo_full).getLast? = some b ∧ b ∈ stored_keys demo_full ∧ b ≠ "c"
        ∧ find s1.data b = none
        ∧ (∀ k, k ≠ b → k ≠ "c" → find s1.data k = find demo_full.data k)
        ∧ find s1.data "c"
            = some { value := "3", expires_at := expiry_of 5 none, lru_pos := demo_full.next_id }
        ∧ stored_keys s1 = "c" :: (stored_keys demo_full).filter (fun a => !decide (a = b))
        ∧ lru_keys s1 = "c" :: (lru_keys demo_full).dropLast
        ∧ s1.capacity = demo_full.capacity ∧ (s1.data.length : Int) = s1.capacity)
    ∧ (∃ s1, set demo_one 1 "b" "2" (some 5) = some s1
        ∧ (∀ k, k ≠ "b" → find s1.data k = find demo_one.data k)
        ∧ find s1.data "b"
            = some { value := "2", expires_at := expiry_of 1 (some 5),
                     lru_pos := demo_one.next_id }
        ∧ stored_keys s1 = "b" :: stored_keys demo_one
        ∧ lru_keys s1 = "b" :: lru_keys demo_one
        ∧ s1.capacity = demo_one.capacity ∧ s1.data.length = demo_one.data.length + 1) :=
  ⟨(set_new_key_eviction demo_full WF_demo_full 5 "c" "3" none (by decide)).1
      (by decide) (by decide),
   (set_new_key_eviction demo_one WF_demo_one 1 "b" "2" (some 5) (by decide)).2 (by decide)⟩

/-- C6 (overwrite preserves slot): on a well-formed store, set of a key that is
physically stored (expired or not, full cache or not) succeeds, leaves the stored
keys and the number of entries unchanged, so nothing is evicted, replaces the
value and the expiry of that key and keeps its position handle, leaves every
other entry as it was, and moves the key to the front of the recency order while
the other keys keep their relative order. -/
theorem set_overwrite_preserves_slot (s : KeyValueStore) (hwf : WF s) (now : TimePoint)
    (key val : String) (ttl : Option Int) (e : Entry) (hold : find s.data key = some e) :
    ∃ s1, set s now key val ttl = some s1
      ∧ stored_keys s1 = stored_keys s ∧ s1.data.length = s.data.length
      ∧ s1.capacity = s.capacity
      ∧ find s1.data key
          = some { value := val, expires_at := expiry_of now ttl, lru_pos := e.lru_pos }
      ∧ (∀ k, k ≠ key → find s1.data k = find s.data k)
      ∧ lru_keys s1 = key :: (lru_keys s).filter (fun a => !decide (a = key)) := by
  obtain ⟨s1, h1, _, h3, h4, _, h6⟩ := set_existing_spec hwf hold now val ttl
  refine ⟨s1, h1, ?_, ?_, h4, ?_, ?_, h6⟩
  · unfold stored_keys
    rw [h3, map_fst_assign]
  · rw [h3]
    simp [assign]
  · rw [h3, find_assign, if_pos rfl, hold]
    rfl
  · intro k hk
    rw [h3, find_assign, if_neg hk]

theorem set_overwrite_preserves_slot_witness :
    ∃ s1, set demo_full 9 "b" "7" none = some s1
      ∧ stored_keys s1 = stored_keys demo_full ∧ s1.data.length = demo_full.data.length
      ∧ s1.capacity = demo_full.capacity
      ∧ find s1.data "b"
          = some { value := "7", expires_at := expiry_of 9 none, lru_pos := 1 }
      ∧ (∀ k, k ≠ "b" → find s1.data k = find demo_full.data k)
      ∧ lru_keys s1 = "b" :: (lru_keys demo_full).filter (fun a => !decide (a = "b")) :=
  set_overwrite_preserves_slot demo_full WF_demo_full 9 "b" "7" none
    { value := "2", expires_at := some 5000000001, lru_pos := 1 } (by decide)

/-- C7 (set-then-get round trip): on a well-formed store with capacity at least
1, set of a key without TTL followed by get of that key at any clock reading
returns the value; and set with a TTL at reading `t0` followed by get at a
reading `t` with `t ≤ t0 + ttl` seconds returns the value. -/
theorem set_get_roundtrip (s : KeyValueStore) (hwf : WF s) (hcap : 1 ≤ s.capacity)
    (t0 : TimePoint) (key val : String) :
    (∀ t : TimePoint, ∃ s1 s2, set s t0 key val none = some s1
        ∧ get s1 t key = some (s2, some val))
    ∧ (∀ (ttl : Int) (t : TimePoint), t ≤ t0 + ttl * ticks_per_second →
        ∃ s1 s2, set s t0 key val (some ttl) = some s1
          ∧ get s1 t key = some (s2, some val)) := by
  constructor
  · intro t
    obtain ⟨s1, pos, h1, h2, h3⟩ := set_defined hwf hcap t0 key val none
    have hx : is_expired { value := val, expires_at := expiry_of t0 none, lru_pos := pos } t
        = false := rfl
    obtain ⟨s2, h4⟩ := get_hit h2 h3 hx
    exact ⟨s1, s2, h1, h4⟩
  · intro ttl t ht
    obtain ⟨s1, pos, h1, h2, h3⟩ := set_defined hwf hcap t0 key val (some ttl)
    have hx : is_expired { value := val, expires_at := expiry_of t0 (some ttl), lru_pos := pos } t
        = false := by
      simp only [is_expired, expiry_of, decide_eq_false_iff_not, not_lt, gt_iff_lt]
      exact ht
    obtain ⟨s2, h4⟩ := get_hit h2 h3 hx
    exact ⟨s1, s2, h1, h4⟩

theorem set_get_roundtrip_witness :
    (∃ s1 s2, set (KeyValueStore.mk_empty 10) 0 "x" "v" none = some s1
        ∧ get s1 7 "x" = some (s2, some "v"))
    ∧ (∃ s1 s2, set (KeyValueStore.mk_empty 10) 0 "x" "v" (some 1) = some s1
        ∧ get s1 0 "x" = some (s2, some "v")) :=
  ⟨(set_get_roundtrip (KeyValueStore.mk_empty 10) (WF_mk_empty 10) (by decide) 0 "x" "v").1 7,
   (set_get_roundtrip (KeyValueStore.mk_empty 10) (WF_mk_empty 10) (by decide) 0 "x" "v").2
      1 0 (by decide)⟩

/-- C8 (lazy expiry, I4): in every state and at every clock reading `now`, if the
entry stored under a key has an `expires_at` earlier than `now`, then get returns
absent and exists returns false, and both leave the state as it was, so the entry
is still physically stored; and an entry with no `expires_at` is not expired at
any reading, so exists returns true for its key. -/
theorem lazy_expiry (s : KeyValueStore) (now : TimePoint) (key : String) (e : Entry)
    (hf : find s.data key = some e) :
    (∀ t, e.expires_at = some t → t < now →
        get s now key = some (s, none) ∧ «exists» s now key = (s, false))
    ∧ (e.expires_at = none → is_expired e now = false ∧ «exists» s now key = (s, true)) := by
  constructor
  · intro t ht hlt
    have hx : is_expired e now = true := by
      simp only [is_expired, ht, decide_eq_true_eq, gt_iff_lt]
      exact hlt
    exact ⟨get_miss_expired hf hx, exists_expired hf hx⟩
  · intro hn
    have hx : is_expired e now = false := by
      simp only [is_expired, hn]
    exact ⟨hx, exists_live hf hx⟩

theorem lazy_expiry_witness :
    set (KeyValueStore.mk_empty 10) 0 "x" "v" (some 1) = some demo_ttl
      ∧ get demo_ttl 1500000000 "x" = some (demo_ttl, none)
      ∧ «exists» demo_ttl 1500000000 "x" = (demo_ttl, false) :=
  ⟨by decide,
   (lazy_expiry demo_ttl 1500000000 "x"
      { value := "v", expires_at := some 1000000000, lru_pos := 0 } (by decide)).1
      1000000000 rfl (by decide)⟩

/-- C9, as the claim states it, fails: after `SET x v 0` at clock reading 5, a
get and an exists at the same reading 5 (not earlier than the set) still see the
key. -/
theorem ttl_zero_same_reading_visible :
    set (KeyValueStore.mk_empty 1) 5 "x" "v" (some 0) = some demo_ttl_zero
      ∧ get demo_ttl_zero 5 "x" = some (demo_ttl_zero, some "v")
      ∧ «exists» demo_ttl_zero 5 "x" = (demo_ttl_zero, true) := by
  decide

/-- C9, amended (TTL visibility): on a well-formed store with capacity at least
1, after set of a key with a TTL that is zero or negative at reading `t0`, the
very next get returns absent and the very next exists returns false, with no
reaper scan in between, at every reading `t` not earlier than `t0` for a negative
TTL, and at every reading strictly later than `t0` for a TTL of zero. -/
theorem ttl_nonpositive_invisible (s : KeyValueStore) (hwf : WF s) (hcap : 1 ≤ s.capacity)
    (t0 t : TimePoint) (key val : String) (ttl : Int)
    (httl : ttl ≤ 0) (ht : t0 ≤ t) (hzero : ttl = 0 → t0 < t) :
    ∃ s1, set s t0 key val (some ttl) = some s1
      ∧ get s1 t key = some (s1, none) ∧ «exists» s1 t key = (s1, false) := by
  obtain ⟨s1, pos, h1, _, h3⟩ := set_defined hwf hcap t0 key val (some ttl)
  have hx : is_expired { value := val, expires_at := expiry_of t0 (some ttl), lru_pos := pos } t
      = true := by
    simp only [is_expired, expiry_of, decide_eq_true_eq, gt_iff_lt, ticks_per_second]
    have ht1 : @LE.le Int _ t0 t := ht
    show @LT.lt Int _ (t0 + ttl * 1000000000) t
    by_cases h0 : ttl = 0
    · have ht2 : @LT.lt Int _ t0 t := hzero h0
      rw [h0]
      omega
    · omega
  exact ⟨s1, h1, get_miss_expired h3 hx, exists_expired h3 hx⟩

theorem ttl_nonpositive_invisible_witness :
    ∃ s1, set (KeyValueStore.mk_empty 1) 5 "x" "v" (some 0) = some s1
      ∧ get s1 6 "x" = some (s1, none) ∧ «exists» s1 6 "x" = (s1, false) :=
  ttl_nonpositive_invisible (KeyValueStore.mk_empty 1) (WF_mk_empty 1) (by decide)
    5 6 "x" "v" 0 (by decide) (by decide) (fun _ => by decide)

/-- C10 (exists is a pure query): in every state, for every key and clock
reading, exists returns true exactly when the key is physically stored and its
entry has no expiry earlier than the reading; it returns the state it was given,
so a set after the exists call does what it does without the call. -/
theorem exists_pure_query (s : KeyValueStore) (now : TimePoint) (key : String) :
    ((«exists» s now key).2 = true ↔
        ∃ e, find s.data key = some e ∧ ∀ t, e.expires_at = some t → ¬ t < now)
    ∧ («exists» s now key).1 = s
    ∧ ∀ (t : TimePoint) (k v : String) (ttl : Option Int),
        set («exists» s now key).1 t k v ttl = set s t k v ttl := by
  refine ⟨?_, exists_fst s now key, ?_⟩
  · cases hf : find s.data key with
    | none =>
      rw [exists_absent hf]
      simp
    | some e =>
      by_cases hx : is_expired e now = true
      · rw [exists_expired hf hx]
        simp only [Bool.false_eq_true, Option.some.injEq, exists_eq_left', false_iff,
          not_forall]
        cases he : e.expires_at with
        | none => simp [is_expired, he] at hx
        | some t0 =>
          simp only [is_expired, he, decide_eq_true_eq, gt_iff_lt] at hx
          exact ⟨t0, rfl, fun hc => hc hx⟩
      · have hx2 : is_expired e now = false := by simpa using hx
        rw [exists_live hf hx2]
        simp only [Option.some.injEq, exists_eq_left', true_iff]
        intro t0 he
        simp only [is_expired, he, decide_eq_false_iff_not, gt_iff_lt] at hx2
        exact hx2
  · intro t k v ttl
    rw [exists_fst]

/-- C4 (recency correctness): for pairwise distinct keys `k1, k2, ..., kN`
(`N ≥ 2`) and a further key `k_new`, on the empty cache of capacity `N` and with
no TTLs, after `set(k1), set(k2), ..., set(kN)` in that order, then `get(k1)`,
then `set(k_new)`, at any clock readings, the run is defined and in the final
state `exists(k2)` is false while `exists` is true for `k1`, for each of
`k3, ..., kN` and for `k_new`, at every clock reading. -/
theorem recency_correctness (p1 p2 : TimePoint × String × String)
    (tl : List (TimePoint × String × String)) (tg tn : TimePoint) (knew vnew : String)
    (hnd : ((p1 :: p2 :: tl).map (fun p => p.2.1)).Nodup)
    (hnew : knew ∉ (p1 :: p2 :: tl).map (fun p => p.2.1)) :
    ∃ s, run (KeyValueStore.mk_empty ((p1 :: p2 :: tl).length : Nat))
          (set_ops (p1 :: p2 :: tl) ++ [Op.get tg p1.2.1, Op.set tn knew vnew none]) = some s
      ∧ ∀ t : TimePoint,
          («exists» s t p2.2.1).2 = false ∧ («exists» s t p1.2.1).2 = true
          ∧ (∀ p ∈ tl, («exists» s t p.2.1).2 = true)
          ∧ («exists» s t knew).2 = true := by
  obtain ⟨t1, k1, v1⟩ := p1
  obtain ⟨t2, k2, v2⟩ := p2
  have hcap0 : ((KeyValueStore.mk_empty ((((t1, k1, v1) :: (t2, k2, v2) :: tl).length : Nat) : Int)).data.length : Int)
      + ((t1, k1, v1) :: (t2, k2, v2) :: tl).length
        ≤ (KeyValueStore.mk_empty ((((t1, k1, v1) :: (t2, k2, v2) :: tl).length : Nat) : Int)).capacity := by
    simp [KeyValueStore.mk_empty]
  obtain ⟨sa, a1, a2, a3, a4, a5, a6⟩ :=
    run_set_ops ((t1, k1, v1) :: (t2, k2, v2) :: tl) _ (WF_mk_empty _)
      (by simp [KeyValueStore.mk_empty]) hnd (by simp [stored_keys, KeyValueStore.mk_empty]) hcap0
  simp only [List.map_cons, List.nodup_cons, List.mem_cons, not_or] at hnd hnew
  obtain ⟨⟨hk12, hk1tl⟩, hk2tl, hndtl⟩ := hnd
  obtain ⟨hn1, hn2, hntl⟩ := hnew
  have hlru_a : lru_keys sa = (tl.map (fun p => p.2.1)).reverse ++ [k2] ++ [k1] := by
    rw [a4]
    simp [lru_keys, KeyValueStore.mk_empty]
  have hst_a : stored_keys sa = (tl.map (fun p => p.2.1)).reverse ++ [k2] ++ [k1] := by
    rw [a5]
    simp [stored_keys, KeyValueStore.mk_empty]
  have hcap_a : sa.capacity = ((tl.length + 2 : Nat) : Int) := by
    rw [a6]
    simp only [KeyValueStore.mk_empty, List.length_cons]
  have hlen_a : sa.data.length = tl.length + 2 := by
    have : (stored_keys sa).length = tl.length + 2 := by
      rw [hst_a]
      simp
    simpa [stored_keys] using this
  -- get(k1)
  have hk1_st : k1 ∈ stored_keys sa := by rw [hst_a]; simp
  obtain ⟨e1, he1⟩ := find_of_mem_stored hk1_st
  have hnone1 : e1.expires_at = none := a3 (k1, e1) (find_some_mem he1)
  have hx1 : is_expired e1 tg = false := by
    simp only [is_expired, hnone1]
  obtain ⟨sb, r, b1, b2, b3, b4, _, b6⟩ := get_spec a2 tg k1
  have hlru_b : lru_keys sb = k1 :: ((tl.map (fun p => p.2.1)).reverse ++ [k2]) := by
    rcases b6 with ⟨_, _, hall⟩ | ⟨_, _, _, _, hl⟩
    · have := hall e1 he1
      rw [hx1] at this
      cases this
    · rw [hl, hlru_a, List.filter_append, List.filter_append]
      have hf1 : ((tl.map (fun p => p.2.1)).reverse).filter (fun a => !decide (a = k1))
          = (tl.map (fun p => p.2.1)).reverse :=
        filter_ne_of_not_mem (fun hc => hk1tl (List.mem_reverse.mp hc))
      have hk21 : ¬ k2 = k1 := fun hc => hk12 hc.symm
      rw [hf1]
      simp [List.filter_cons, hk21]
  -- set(k_new)
  have hknew_st : knew ∉ stored_keys sb := by
    unfold stored_keys
    rw [b3]
    show knew ∉ stored_keys sa
    rw [hst_a]
    simp only [List.mem_append, List.mem_reverse, List.mem_singleton, not_or]
    exact ⟨⟨hntl, hn2⟩, hn1⟩
  have hf_new : find sb.data knew = none := find_eq_none_iff.mpr hknew_st
  have hfull : (sb.data.length : Int) ≥ sb.capacity := by
    rw [b3, b4, hcap_a, hlen_a]
  have hne_b : sb.lru_order ≠ [] := by
    intro hc
    have : lru_keys sb = [] := by simp [lru_keys, hc]
    rw [hlru_b] at this
    cases this
  obtain ⟨sc, b, c1, c2, _, _, c5, _, _⟩ := set_new_full_spec b2 hf_new hfull hne_b tn vnew none
  have hb : b = k2 := by
    rw [hlru_b] at c2
    have h2 : (k1 :: ((tl.map (fun p => p.2.1)).reverse ++ [k2])).getLast? = some k2 := by
      rw [← List.cons_append, List.getLast?_concat]
    rw [h2] at c2
    cases c2
    rfl
  rw [hb] at c5
  have hrun : run (KeyValueStore.mk_empty ((((t1, k1, v1) :: (t2, k2, v2) :: tl).length : Nat) : Int))
      (set_ops ((t1, k1, v1) :: (t2, k2, v2) :: tl) ++ [Op.get tg k1, Op.set tn knew vnew none])
        = some sc := by
    rw [run_append, a1]
    show run sa [Op.get tg k1, Op.set tn knew vnew none] = some sc
    simp only [run, step, b1, Option.map_some', c1]
  have hkeep : ∀ k, k ≠ k2 → k ≠ knew → k ∈ stored_keys sa → ∀ t : TimePoint,
      («exists» sc t k).2 = true := by
    intro k hkb hkn hk t
    obtain ⟨e, he⟩ := find_of_mem_stored hk
    have hkn2 : ¬ knew = k := fun hc => hkn hc.symm
    have hfc : find sc.data k = some e := by
      rw [c5]
      simp only [find, hkn2, if_false]
      rw [find_erase_key, if_neg hkb, b3, he]
    have hnone : e.expires_at = none := a3 (k, e) (find_some_mem he)
    have hx : is_expired e t = false := by
      simp only [is_expired, hnone]
    rw [exists_live hfc hx]
  refine ⟨sc, hrun, ?_⟩
  intro t
  refine ⟨?_, ?_, ?_, ?_⟩
  · have hfc : find sc.data k2 = none := by
      have hnb : ¬ knew = k2 := hn2
      rw [c5]
      simp only [find, hnb, if_false]
      rw [find_erase_key, if_pos rfl]
    rw [exists_absent hfc]
  · exact hkeep k1 hk12 (fun hc => hn1 hc.symm) hk1_st t
  · intro p hp
    have hpm : p.2.1 ∈ tl.map (fun p => p.2.1) := List.mem_map_of_mem (fun p => p.2.1) hp
    refine hkeep p.2.1 (fun hc => hk2tl (hc ▸ hpm)) (fun hc => hntl (hc ▸ hpm)) ?_ t
    rw [hst_a]
    simp only [List.mem_append, List.mem_reverse, List.mem_singleton]
    exact Or.inl (Or.inl hpm)
  · have hfc : find sc.data knew
        = some { value := vnew, expires_at := expiry_of tn none, lru_pos := sb.next_id } := by
      rw [c5]
      simp [find]
    rw [exists_live hfc rfl]

theorem recency_correctness_witness :
    ∃ s, run (KeyValueStore.mk_empty 2)
          (set_ops [(0, "a", "1"), (1, "b", "2")] ++ [Op.get 2 "a", Op.set 3 "c" "3" none])
            = some s
      ∧ ∀ t : TimePoint,
          («exists» s t "b").2 = false ∧ («exists» s t "a").2 = true
          ∧ (∀ p ∈ ([] : List (TimePoint × String × String)), («exists» s t p.2.1).2 = true)
          ∧ («exists» s t "c").2 = true :=
  recency_correctness (0, "a", "1") (1, "b", "2") [] 2 3 "c" "3" (by decide) (by decide)

/-- C5 (the recency order is the order of last touch): after every sequence of
operations applied to the empty cache with capacity at least 1, every key of the
recency order is a stored key and conversely, every such key has been touched,
and a key stands before another key in the
recency order exactly when its most recent touch is the later one (it is nearer
the head of the history of touches, most recent first), where a touch is a set of
the key or a get of the key that returned a value.  Hence, when the cache is full,
set of a new key removes a stored key whose most recent touch is older than that
of every other stored key. -/
theorem recency_is_last_touch_order (cap : Int) (hcap : 1 ≤ cap) (ops : List Op) :
    ∃ s, run (KeyValueStore.mk_empty cap) ops = some s
      ∧ (∀ k, k ∈ lru_keys s ↔ k ∈ stored_keys s)
      ∧ TouchOrdered (lru_keys s) (touches (KeyValueStore.mk_empty cap) [] ops)
      ∧ ∀ (now : TimePoint) (key val : String) (ttl : Option Int),
          find s.data key = none → (s.data.length : Int) = cap →
          ∃ s1 b, set s now key val ttl = some s1
            ∧ b ∈ stored_keys s ∧ find s1.data b = none
            ∧ ∀ k ∈ stored_keys s, k ≠ b →
                (touches (KeyValueStore.mk_empty cap) [] ops).indexOf k
                  < (touches (KeyValueStore.mk_empty cap) [] ops).indexOf b := by
  obtain ⟨s, h1, h2, h3⟩ := run_Inv (Inv_mk_empty hcap) ops
  have hc : s.capacity = cap := h3
  have hT := run_touchOrdered (WF_mk_empty cap) h1 (touchOrdered_nil [])
  have hwf := h2.1
  refine ⟨s, h1, fun k => ⟨fun hk => ?_, mem_lru_keys hwf⟩, hT, ?_⟩
  · by_contra hc2
    exact not_mem_lru_keys hwf hc2 hk
  intro now key val ttl hnew hfull
  have hdne : s.data ≠ [] := by
    intro hd
    rw [hd] at hfull
    simp at hfull
    omega
  obtain ⟨s1, b, e1, e2, e3, _, e5, _⟩ :=
    set_new_full_spec hwf hnew (by omega) (lru_ne_nil_of_data hwf hdne) now val ttl
  have hbk : ¬ key = b := fun hc2 => find_eq_none_iff.mp hnew (hc2 ▸ e3)
  refine ⟨s1, b, e1, e3, ?_, ?_⟩
  · rw [e5]
    simp only [find, hbk, if_false]
    rw [find_erase_key, if_pos rfl]
  · intro k hk hkb
    exact pairwise_last hT.2 e2 (mem_lru_keys hwf hk) hkb

theorem recency_is_last_touch_order_witness :
    ∃ s, run (KeyValueStore.mk_empty 2) [.set 0 "a" "1" none, .set 0 "b" "2" none] = some s
      ∧ (∀ k, k ∈ lru_keys s ↔ k ∈ stored_keys s)
      ∧ TouchOrdered (lru_keys s)
          (touches (KeyValueStore.mk_empty 2) [] [.set 0 "a" "1" none, .set 0 "b" "2" none])
      ∧ ∀ (now : TimePoint) (key val : String) (ttl : Option Int),
          find s.data key = none → (s.data.length : Int) = 2 →
          ∃ s1 b, set s now key val ttl = some s1
            ∧ b ∈ stored_keys s ∧ find s1.data b = none
            ∧ ∀ k ∈ stored_keys s, k ≠ b →
                (touches (KeyValueStore.mk_empty 2) []
                    [.set 0 "a" "1" none, .set 0 "b" "2" none]).indexOf k
                  < (touches (KeyValueStore.mk_empty 2) []
                    [.set 0 "a" "1" none, .set 0 "b" "2" none]).indexOf b :=
  recency_is_last_touch_order 2 (by decide) [.set 0 "a" "1" none, .set 0 "b" "2" none]

/-- C11 (a get that misses changes nothing): in every state, for every key and
clock reading, if the key is not stored, or its entry has an `expires_at` earlier
than the reading, then get returns absent and the state it leaves is the state it
was given: the map, the recency order and so the position of an expired entry
are as they were. -/
theorem get_miss_changes_nothing (s : KeyValueStore) (now : TimePoint) (key : String)
    (h : find s.data key = none
      ∨ ∃ e t, find s.data key = some e ∧ e.expires_at = some t ∧ t < now) :
    get s now key = some (s, none) := by
  rcases h with h | ⟨e, t, hf, ht, hlt⟩
  · unfold get
    rw [h]
  · exact get_miss_expired hf ((is_expired_iff e now).mpr ⟨t, ht, hlt⟩)

theorem get_miss_changes_nothing_witness :
    get demo_ttl 1500000000 "x" = some (demo_ttl, none) :=
  get_miss_changes_nothing demo_ttl 1500000000 "x"
    (Or.inr ⟨{ value := "v", expires_at := some 1000000000, lru_pos := 0 }, 1000000000,
      by decide, rfl, by decide⟩)

/-- C12 (delete): on a well-formed store, del of a stored key succeeds, removes
the key from the map and from the recency order, leaves every other entry as it
was and the other keys of the recency order in their order, and the map has one
entry less; del of a key that is not stored returns the state as it was; and del
applied twice gives what del applied once gives. -/
theorem del_removes_key (s : KeyValueStore) (hwf : WF s) (key : String) :
    (∀ e, find s.data key = some e →
      ∃ s1, del s key = some s1 ∧ find s1.data key = none ∧ key ∉ lru_keys s1
        ∧ (∀ k, k ≠ key → find s1.data k = find s.data k)
        ∧ lru_keys s1 = (lru_keys s).filter (fun a => !decide (a = key))
        ∧ stored_keys s1 = (stored_keys s).filter (fun a => !decide (a = key))
        ∧ s1.data.length + 1 = s.data.length ∧ s1.capacity = s.capacity)
    ∧ (find s.data key = none → del s key = some s)
    ∧ (del s key).bind (fun s1 => del s1 key) = del s key := by
  obtain ⟨s1, h1, h2, h3, h4, h5, _⟩ := del_spec hwf key
  have hgone : find s1.data key = none := by
    rw [h3, find_erase_key, if_pos rfl]
  have habsent : ∀ s2 : KeyValueStore, find s2.data key = none → del s2 key = some s2 := by
    intro s2 hf
    unfold del
    rw [hf]
  refine ⟨?_, habsent s, ?_⟩
  · intro e he
    refine ⟨s1, h1, hgone, ?_, ?_, h4, ?_, ?_, h5⟩
    · rw [h4]
      exact filter_ne_not_mem _ _
    · intro k hk
      rw [h3, find_erase_key, if_neg hk]
    · unfold stored_keys
      rw [h3, map_fst_erase_key]
    · rw [h3]
      exact length_erase_key hwf.keys_nodup (List.mem_map_of_mem Prod.fst (find_some_mem he))
  · rw [h1]
    exact habsent s1 hgone

theorem del_removes_key_witness :
    (∃ s1, del demo_full "b" = some s1 ∧ find s1.data "b" = none ∧ "b" ∉ lru_keys s1
        ∧ (∀ k, k ≠ "b" → find s1.data k = find demo_full.data k)
        ∧ lru_keys s1 = (lru_keys demo_full).filter (fun a => !decide (a = "b"))
        ∧ stored_keys s1 = (stored_keys demo_full).filter (fun a => !decide (a = "b"))
        ∧ s1.data.length + 1 = demo_full.data.length ∧ s1.capacity = demo_full.capacity)
    ∧ del demo_full "zz" = some demo_full :=
  ⟨(del_removes_key demo_full WF_demo_full "b").1
      { value := "2", expires_at := some 5000000001, lru_pos := 1 } (by decide),
   (del_removes_key demo_full WF_demo_full "zz").2.1 (by decide)⟩

/-- C13 (one reaper scan): on a well-formed store, a scan whose calls of
`is_expired` read the clock as `clk 0`, `clk 1`, ..., all of them between `lo`
and `hi`, succeeds; the entry visited at position `i` stays exactly when it is
not expired at `clk i`; every entry that stays is an entry of the old map, found
as it was, in the old order, and is not expired at `lo`; every entry with no
expiry or an expiry not earlier than `hi` stays, with its value, expiry and
position; every entry whose `expires_at` is earlier than `lo` is removed; the
recency order holds exactly the keys that stay, in the order they had; and the
entry a preceding set has written with an expiry not earlier than `hi` is not
removed.  When the clock reads one value `now` during the scan (`lo = hi`), the
map afterwards is the old map without the entries whose `expires_at` is earlier
than `now`: a key is gone exactly when it was not stored or its `expires_at` was
earlier than `now`. -/
theorem reaper_scan_removes_expired (s : KeyValueStore) (hwf : WF s)
    (clk : Nat → TimePoint) (lo hi : TimePoint)
    (hlo : ∀ i, lo ≤ clk i) (hhi : ∀ i, clk i ≤ hi) :
    ∃ s1, reaper_scan s clk = some s1
      ∧ s1.data
          = ((s.data.enum.filter (fun ip => !is_expired ip.2.2 (clk ip.1))).map Prod.snd)
      ∧ s1.data.Sublist s.data
      ∧ (∀ k e, find s1.data k = some e →
          find s.data k = some e ∧ ∀ t, e.expires_at = some t → ¬ t < lo)
      ∧ (∀ k e, find s.data k = some e → (∀ t, e.expires_at = some t → ¬ t < hi) →
          find s1.data k = some e)
      ∧ (∀ k e t, find s.data k = some e → e.expires_at = some t → t < lo →
          find s1.data k = none)
      ∧ (∀ k, k ∈ lru_keys s1 ↔ k ∈ stored_keys s1)
      ∧ lru_keys s1 = (lru_keys s).filter (fun k => decide (k ∈ stored_keys s1))
      ∧ s1.capacity = s.capacity
      ∧ (∀ (s0 : KeyValueStore) (t0 : TimePoint) (key val : String) (ttl : Option Int),
          WF s0 → set s0 t0 key val ttl = some s →
          (∀ t, expiry_of t0 ttl = some t → ¬ t < hi) →
          ∃ pos, find s1.data key
            = some { value := val, expires_at := expiry_of t0 ttl, lru_pos := pos })
      ∧ (lo = hi →
          s1.data = s.data.filter (fun p => !is_expired p.2 lo)
          ∧ ∀ k, find s1.data k = none ↔
              (find s.data k = none
                ∨ ∃ e t, find s.data k = some e ∧ e.expires_at = some t ∧ t < lo)) := by
  obtain ⟨s1, h1, h2, h3, h4, h5, _⟩ := reaper_scan_spec hwf clk
  have hvisit : reaper_visit clk 0 s.data s.lru_order = some (s1.data, s1.lru_order) := by
    unfold reaper_scan at h1
    cases hr : reaper_visit clk 0 s.data s.lru_order with
    | none => simp [hr] at h1
    | some q =>
      obtain ⟨kept, lru1⟩ := q
      simp only [hr, Option.some.injEq] at h1
      rw [← h1]
  obtain ⟨hm1, hm2⟩ := reaper_visit_members clk s.data 0 s.lru_order s1.data s1.lru_order hvisit
  have hpos := reaper_visit_positions clk s.data 0 s.lru_order s1.data s1.lru_order hvisit
  have hstay : ∀ k e, find s1.data k = some e →
      find s.data k = some e ∧ ∀ t, e.expires_at = some t → ¬ t < lo := by
    intro k e hf
    have hmem := find_some_mem hf
    refine ⟨mem_find hwf.keys_nodup (h3.subset hmem), ?_⟩
    obtain ⟨j, hj⟩ := hm1 (k, e) hmem
    exact (is_expired_false_iff e lo).mp (is_expired_false_of_le (hlo j) hj)
  have hkeep : ∀ k e, find s.data k = some e → (∀ t, e.expires_at = some t → ¬ t < hi) →
      find s1.data k = some e := by
    intro k e hf hx
    have hx2 : is_expired e hi = false := (is_expired_false_iff e hi).mpr hx
    have hmem := hm2 (k, e) (find_some_mem hf) (fun j => is_expired_false_of_le (hhi j) hx2)
    exact mem_find h2.keys_nodup hmem
  have hgone : ∀ k e t, find s.data k = some e → e.expires_at = some t → t < lo →
      find s1.data k = none := by
    intro k e t hf ht hlt
    cases hf1 : find s1.data k with
    | none => rfl
    | some e1 =>
      exfalso
      obtain ⟨hf2, hx⟩ := hstay k e1 hf1
      rw [hf] at hf2
      cases hf2
      exact hx t ht hlt
  have hsame : ∀ k, k ∈ lru_keys s1 ↔ k ∈ stored_keys s1 := by
    intro k
    constructor
    · intro hk
      by_contra hc
      exact not_mem_lru_keys h2 hc hk
    · exact mem_lru_keys h2
  refine ⟨s1, h1, hpos, h3, hstay, hkeep, hgone, hsame, ?_, h5, ?_, ?_⟩
  · have h6 := sublist_eq_filter h4 hwf.lru_keys_nodup
    have hcongr : (lru_keys s).filter (fun x => decide (x ∈ lru_keys s1))
        = (lru_keys s).filter (fun k => decide (k ∈ stored_keys s1)) := by
      apply List.filter_congr
      intro x _
      simp only [decide_eq_decide]
      exact hsame x
    rw [← hcongr]
    exact h6
  · intro s0 t0 key val ttl hwf0 hset hx
    obtain ⟨pos, hp⟩ := set_find hwf0 hset
    exact ⟨pos, hkeep key _ hp hx⟩
  · intro hlh
    have hclk : clk = fun _ => lo := by
      funext i
      have a1 := hlo i
      have a2 := hhi i
      rw [← hlh] at a2
      exact le_antisymm a2 a1
    have hdata : s1.data = s.data.filter (fun p => !is_expired p.2 lo) := by
      rw [hclk] at hvisit
      exact reaper_visit_kept lo s.data 0 s.lru_order s1.data s1.lru_order hvisit
    refine ⟨hdata, ?_⟩
    intro k
    constructor
    · intro hnone
      cases hf : find s.data k with
      | none => exact Or.inl rfl
      | some e =>
        right
        by_cases hx : is_expired e lo = true
        · obtain ⟨t, ht, hlt⟩ := (is_expired_iff e lo).mp hx
          exact ⟨e, t, rfl, ht, hlt⟩
        · exfalso
          have hx2 : is_expired e lo = false := by simpa using hx
          have hx3 : ∀ t, e.expires_at = some t → ¬ t < hi := by
            rw [← hlh]
            exact (is_expired_false_iff e lo).mp hx2
          rw [hkeep k e hf hx3] at hnone
          cases hnone
    · rintro (hnone | ⟨e, t, hf, ht, hlt⟩)
      · cases hf1 : find s1.data k with
        | none => rfl
        | some e1 =>
          exfalso
          rw [(hstay k e1 hf1).1] at hnone
          cases hnone
      · exact hgone k e t hf ht hlt

theorem reaper_scan_removes_expired_witness :
    ∃ s1, reaper_scan demo_moving demo_clock = some s1
      ∧ s1.data
          = ((demo_moving.data.enum.filter
                (fun ip => !is_expired ip.2.2 (demo_clock ip.1))).map Prod.snd)
      ∧ s1.data.Sublist demo_moving.data
      ∧ (∀ k e, find s1.data k = some e →
          find demo_moving.data k = some e
            ∧ ∀ t, e.expires_at = some t → ¬ t < (3000000004 : TimePoint))
      ∧ (∀ k e, find demo_moving.data k = some e →
          (∀ t, e.expires_at = some t → ¬ t < (3000000008 : TimePoint)) →
          find s1.data k = some e)
      ∧ (∀ k e t, find demo_moving.data k = some e → e.expires_at = some t →
          t < (3000000004 : TimePoint) → find s1.data k = none)
      ∧ (∀ k, k ∈ lru_keys s1 ↔ k ∈ stored_keys s1)
      ∧ lru_keys s1 = (lru_keys demo_moving).filter (fun k => decide (k ∈ stored_keys s1))
      ∧ s1.capacity = demo_moving.capacity
      ∧ (∀ (s0 : KeyValueStore) (t0 : TimePoint) (key val : String) (ttl : Option Int),
          WF s0 → set s0 t0 key val ttl = some demo_moving →
          (∀ t, expiry_of t0 ttl = some t → ¬ t < (3000000008 : TimePoint)) →
          ∃ pos, find s1.data key
            = some { value := val, expires_at := expiry_of t0 ttl, lru_pos := pos })
      ∧ ((3000000004 : TimePoint) = 3000000008 →
          s1.data = demo_moving.data.filter (fun p => !is_expired p.2 3000000004)
          ∧ ∀ k, find s1.data k = none ↔
              (find demo_moving.data k = none
                ∨ ∃ e t, find demo_moving.data k = some e ∧ e.expires_at = some t
                    ∧ t < (3000000004 : TimePoint))) :=
  reaper_scan_removes_expired demo_moving WF_demo_moving demo_clock 3000000004 3000000008
    demo_clock_lo demo_clock_hi

/-- C17, on the code: get declares a `std::shared_lock`, the same acquisition as
exists, while set, del and the reaper declare a `std::unique_lock`; two shared
acquisitions can be held at the same time; and a get that hits relinks the
recency order (here `get(a)` moves `a` in front of `b`).  So the code does not
hold the exclusive acquisition in get. -/
theorem get_holds_shared_lock :
    lock_mode Method.get = LockMode.shared
      ∧ lock_mode Method.«exists» = LockMode.shared
      ∧ lock_mode Method.set = LockMode.exclusive
      ∧ lock_mode Method.del = LockMode.exclusive
      ∧ lock_mode Method.reaper_loop = LockMode.exclusive
      ∧ may_hold_together (lock_mode Method.get) (lock_mode Method.get) = true
      ∧ run (KeyValueStore.mk_empty 2) [.set 0 "a" "1" none, .set 0 "b" "2" none]
          = some demo_two
      ∧ get demo_two 0 "a" = some (demo_two_after_get, some "1")
      ∧ demo_two_after_get.lru_order ≠ demo_two.lru_order := by
  decide

/-- C18 (no operation reaches an undefined step): for every capacity at least 1
and every sequence of operations applied to the empty cache, the run is defined,
and in the state it reaches every operation is defined; the recency order is not
empty whenever the map holds at least `capacity` entries, which is when set calls
`evict_lru`, so `evict_lru` is defined there; and for every stored key the
position saved in its entry is the identity of a node of the recency order, so
`move_to_front` is defined for it, also after set has overwritten the value and
the expiry of the entry. -/
theorem no_undefined_step (cap : Int) (hcap : 1 ≤ cap) (ops : List Op) :
    ∃ s, run (KeyValueStore.mk_empty cap) ops = some s
      ∧ (∀ op : Op, ∃ s1, step s op = some s1)
      ∧ ((s.data.length : Int) ≥ s.capacity →
          s.lru_order ≠ [] ∧ ∃ s1, evict_lru s = some s1)
      ∧ (∀ key e, find s.data key = some e →
          (∃ n ∈ s.lru_order, n.id = e.lru_pos)
          ∧ (∃ s1, move_to_front s key = some s1)
          ∧ ∀ (val : String) (exp : Option TimePoint),
              ∃ s1, move_to_front
                { s with data := (assign s.data key
                    (fun e0 => { e0 with value := val, expires_at := exp })) } key
                  = some s1) := by
  obtain ⟨s, h1, h2, _⟩ := run_Inv (Inv_mk_empty hcap) ops
  have hwf : WF s := h2.1
  have hc1 : 1 ≤ s.capacity := h2.2.1
  refine ⟨s, h1, ?_, ?_, ?_⟩
  · intro op
    obtain ⟨s1, e1, _⟩ := step_Inv h2 op
    exact ⟨s1, e1⟩
  · intro hfull
    have hdne : s.data ≠ [] := by
      intro hd
      rw [hd] at hfull
      simp at hfull
      omega
    have hne := lru_ne_nil_of_data hwf hdne
    obtain ⟨s1, b, e1, _⟩ := evict_lru_spec hwf hne
    exact ⟨hne, s1, e1⟩
  · intro key e hf
    refine ⟨?_, ?_, ?_⟩
    · obtain ⟨n, hn, hid, _⟩ := hwf.pos_live key e (find_some_mem hf)
      exact ⟨n, hn, hid⟩
    · obtain ⟨s1, e1, _⟩ := move_to_front_spec hwf hf
      exact ⟨s1, e1⟩
    · intro val exp
      have hwf0 : WF { s with data := (assign s.data key
          (fun e0 => { e0 with value := val, expires_at := exp })) } :=
        WFc_assign hwf key (fun e0 => { e0 with value := val, expires_at := exp })
          (fun _ => rfl)
      have hf0 : find (assign s.data key
          (fun e0 => { e0 with value := val, expires_at := exp })) key
            = some { e with value := val, expires_at := exp } := by
        rw [find_assign, if_pos rfl, hf]
        rfl
      obtain ⟨s1, e1, _⟩ := move_to_front_spec hwf0 hf0
      exact ⟨s1, e1⟩

theorem no_undefined_step_witness :
    ∃ s, run (KeyValueStore.mk_empty 2) demo_ops = some s
      ∧ (∀ op : Op, ∃ s1, step s op = some s1)
      ∧ ((s.data.length : Int) ≥ s.capacity →
          s.lru_order ≠ [] ∧ ∃ s1, evict_lru s = some s1)
      ∧ (∀ key e, find s.data key = some e →
          (∃ n ∈ s.lru_order, n.id = e.lru_pos)
          ∧ (∃ s1, move_to_front s key = some s1)
          ∧ ∀ (val : String) (exp : Option TimePoint),
              ∃ s1, move_to_front
                { s with data := (assign s.data key
                    (fun e0 => { e0 with value := val, expires_at := exp })) } key
                  = some s1) :=
  no_undefined_step 2 (by decide) demo_ops

/-- C19 (expired entries still occupy capacity and eviction ignores expiry): on a
cache of capacity 2, after `set(a, 1)` and `set(b, 2, ttl 0)` at clock reading 0
and with no reaper scan, at clock reading 10 the key `a` is stored and not
expired and `b` is stored and expired; `set(c, 3)` at that reading evicts `a`
and keeps the expired `b` physically stored. -/
theorem eviction_ignores_expiry :
    run (KeyValueStore.mk_empty 2) [.set 0 "a" "1" none, .set 0 "b" "2" (some 0)]
        = some demo_expired
      ∧ «exists» demo_expired 10 "a" = (demo_expired, true)
      ∧ find demo_expired.data "b" = some { value := "2", expires_at := some 0, lru_pos := 1 }
      ∧ is_expired { value := "2", expires_at := some 0, lru_pos := 1 } 10 = true
      ∧ «exists» demo_expired 10 "b" = (demo_expired, false)
      ∧ set demo_expired 10 "c" "3" none = some demo_expired_after
      ∧ find demo_expired_after.data "a" = none
      ∧ find demo_expired_after.data "b"
          = some { value := "2", expires_at := some 0, lru_pos := 1 }
      ∧ lru_keys demo_expired_after = ["c", "b"] := by
  decide

/-- C14, as the claim states it, fails: `2147483648` is a decimal integer, and
the line `SET k v 2147483648` gets no `OK` answer and does not call set, because
`std::stoi` throws `out_of_range`. -/
theorem set_ttl_out_of_int_range_throws :
    parse "SET k v 2147483648\n" = ["SET", "k", "v", "2147483648"]
      ∧ handle_client (KeyValueStore.mk_empty 10) 0 "SET k v 2147483648\n"
          = Handled.threw StoiError.out_of_range := by
  decide

/-- C14, amended (the command handler answers as the protocol table says): on a
well-formed store with capacity at least 1, `SET key value` calls set without TTL
and answers `OK`; `SET key value ttl`, for a `ttl` that is a decimal integer
within the range of `int`, calls set with that TTL and answers `OK`; `GET key`
answers the value and a newline when get returns a value and `(nil)` and a
newline otherwise; `DEL key` calls del and answers `OK`; `EXISTS key` answers
`1` or `0` as exists returns; a SET with fewer than two arguments and a GET, DEL
or EXISTS with no argument get their usage error; any other first token gets the
unknown-command error; and the error answers leave the store as it was. -/
theorem handler_follows_protocol (s : KeyValueStore) (hwf : WF s) (hcap : 1 ≤ s.capacity)
    (now : TimePoint) (key val : String) :
    (∃ s1, set s now key val none = some s1
        ∧ handle_tokens s now ["SET", key, val] = Handled.sent s1 "OK\n")
    ∧ (∀ sign ds : List Char, (sign = [] ∨ sign = ['+'] ∨ sign = ['-']) → ds ≠ [] →
        (∀ c ∈ ds, c.isDigit = true) →
        -2147483648 ≤ decimal_value sign ds → decimal_value sign ds ≤ 2147483647 →
        ∃ s1, set s now key val (some (decimal_value sign ds)) = some s1
          ∧ handle_tokens s now ["SET", key, val, String.mk (sign ++ ds)]
              = Handled.sent s1 "OK\n")
    ∧ (∃ s1 r, get s now key = some (s1, r)
        ∧ handle_tokens s now ["GET", key]
            = Handled.sent s1 (match r with
                               | some v => v ++ "\n"
                               | none => "(nil)\n"))
    ∧ (∃ s1, del s key = some s1
        ∧ handle_tokens s now ["DEL", key] = Handled.sent s1 "OK\n")
    ∧ handle_tokens s now ["EXISTS", key]
        = Handled.sent s (if («exists» s now key).2 = true then "1\n" else "0\n")
    ∧ handle_tokens s now ["SET"] = Handled.sent s "ERROR usage: SET key value [ttl]\n"
    ∧ handle_tokens s now ["SET", key] = Handled.sent s "ERROR usage: SET key value [ttl]\n"
    ∧ handle_tokens s now ["GET"] = Handled.sent s "ERROR usage: GET key\n"
    ∧ handle_tokens s now ["DEL"] = Handled.sent s "ERROR usage: DEL key\n"
    ∧ handle_tokens s now ["EXISTS"] = Handled.sent s "ERROR usage: EXISTS key\n"
    ∧ (∀ (cmd : String) (args : List String),
        cmd ≠ "SET" → cmd ≠ "GET" → cmd ≠ "DEL" → cmd ≠ "EXISTS" →
        handle_tokens s now (cmd :: args)
          = Handled.sent s ("ERROR unknown command: " ++ cmd ++ "\n")) := by
  refine ⟨?_, ?_, ?_, ?_, ?_, ?_, ?_, ?_, ?_, ?_, ?_⟩
  · obtain ⟨s1, _, h1, _⟩ := set_defined hwf hcap now key val none
    refine ⟨s1, h1, ?_⟩
    simp [handle_tokens, h1]
  · intro sign ds hs hne hd hlo hhi
    obtain ⟨s1, _, h1, _⟩ := set_defined hwf hcap now key val (some (decimal_value sign ds))
    refine ⟨s1, h1, ?_⟩
    have hst := stoi_decimal sign ds hs hne hd hlo hhi
    simp [handle_tokens, hst, h1]
  · obtain ⟨s1, r, h1, _⟩ := get_spec hwf now key
    refine ⟨s1, r, h1, ?_⟩
    have hne : ¬ ("GET" = "SET") := by decide
    cases r with
    | none => simp [handle_tokens, hne, h1]
    | some v => simp [handle_tokens, hne, h1]
  · obtain ⟨s1, h1, _⟩ := del_spec hwf key
    refine ⟨s1, h1, ?_⟩
    have hne1 : ¬ ("DEL" = "SET") := by decide
    have hne2 : ¬ ("DEL" = "GET") := by decide
    simp [handle_tokens, hne1, hne2, h1]
  · have hne1 : ¬ ("EXISTS" = "SET") := by decide
    have hne2 : ¬ ("EXISTS" = "GET") := by decide
    have hne3 : ¬ ("EXISTS" = "DEL") := by decide
    simp [handle_tokens, hne1, hne2, hne3, exists_fst]
  · simp [handle_tokens]
  · simp [handle_tokens]
  · have hne : ¬ ("GET" = "SET") := by decide
    simp [handle_tokens, hne]
  · have hne1 : ¬ ("DEL" = "SET") := by decide
    have hne2 : ¬ ("DEL" = "GET") := by decide
    simp [handle_tokens, hne1, hne2]
  · have hne1 : ¬ ("EXISTS" = "SET") := by decide
    have hne2 : ¬ ("EXISTS" = "GET") := by decide
    have hne3 : ¬ ("EXISTS" = "DEL") := by decide
    simp [handle_tokens, hne1, hne2, hne3]
  · intro cmd args h1 h2 h3 h4
    simp [handle_tokens, h1, h2, h3, h4]

theorem handler_follows_protocol_witness :
    ∃ s1, set demo_one 3 "k" "v" (some (decimal_value ['-'] ['1', '2'])) = some s1
      ∧ handle_tokens demo_one 3 ["SET", "k", "v", String.mk (['-'] ++ ['1', '2'])]
          = Handled.sent s1 "OK\n" :=
  (handler_follows_protocol demo_one WF_demo_one (by decide) 3 "k" "v").2.1
    ['-'] ['1', '2'] (by decide) (by decide) (by decide) (by decide) (by decide)

/-- C15, as the claim states it, fails: the lines `SET k v 10 extra` and
`GET a b` are none of the four command syntaxes, yet the first is answered `OK`
and changes the store, and the second is answered `(nil)`. -/
theorem extra_arguments_are_not_errors :
    handle_client (KeyValueStore.mk_empty 10) 0 "SET k v 10 extra\n"
        = Handled.sent demo_extra "OK\n"
      ∧ demo_extra ≠ KeyValueStore.mk_empty 10
      ∧ handle_client (KeyValueStore.mk_empty 10) 0 "GET a b\n"
          = Handled.sent (KeyValueStore.mk_empty 10) "(nil)\n" := by
  decide

/-- C15, amended (unknown verbs and missing arguments are answered with an
error): for every token list whose first token is none of `SET`, `GET`, `DEL`,
`EXISTS`, or is `SET` with fewer than two arguments, or is `GET`, `DEL` or
`EXISTS` with no argument, the response starts with `ERROR ` and the store is
left as it was. -/
theorem malformed_command_is_error (s : KeyValueStore) (now : TimePoint) (cmd : String)
    (args : List String)
    (h : (cmd ≠ "SET" ∧ cmd ≠ "GET" ∧ cmd ≠ "DEL" ∧ cmd ≠ "EXISTS")
      ∨ (cmd = "SET" ∧ args.length < 2)
      ∨ ((cmd = "GET" ∨ cmd = "DEL" ∨ cmd = "EXISTS") ∧ args = [])) :
    ∃ reason, handle_tokens s now (cmd :: args) = Handled.sent s ("ERROR " ++ reason) := by
  rcases h with ⟨h1, h2, h3, h4⟩ | ⟨h1, h2⟩ | ⟨h1 | h1 | h1, h2⟩
  · refine ⟨"unknown command: " ++ cmd ++ "\n", ?_⟩
    have hs : "ERROR " ++ ("unknown command: " ++ cmd ++ "\n")
        = "ERROR unknown command: " ++ cmd ++ "\n" := by
      rw [← String.append_assoc, ← String.append_assoc]
      rfl
    rw [hs]
    simp [handle_tokens, h1, h2, h3, h4]
  · refine ⟨"usage: SET key value [ttl]\n", ?_⟩
    subst h1
    have hlen : (("SET" : String) :: args).length < 3 := by
      simp only [List.length_cons]
      omega
    have hs : "ERROR " ++ "usage: SET key value [ttl]\n" = "ERROR usage: SET key value [ttl]\n" := by
      decide
    rw [hs]
    simp only [handle_tokens, if_true, hlen]
  · refine ⟨"usage: GET key\n", ?_⟩
    subst h1 h2
    have hne : ¬ ("GET" = "SET") := by decide
    have hs : "ERROR " ++ "usage: GET key\n" = "ERROR usage: GET key\n" := by decide
    rw [hs]
    simp [handle_tokens, hne]
  · refine ⟨"usage: DEL key\n", ?_⟩
    subst h1 h2
    have hne1 : ¬ ("DEL" = "SET") := by decide
    have hne2 : ¬ ("DEL" = "GET") := by decide
    have hs : "ERROR " ++ "usage: DEL key\n" = "ERROR usage: DEL key\n" := by decide
    rw [hs]
    simp [handle_tokens, hne1, hne2]
  · refine ⟨"usage: EXISTS key\n", ?_⟩
    subst h1 h2
    have hne1 : ¬ ("EXISTS" = "SET") := by decide
    have hne2 : ¬ ("EXISTS" = "GET") := by decide
    have hne3 : ¬ ("EXISTS" = "DEL") := by decide
    have hs : "ERROR " ++ "usage: EXISTS key\n" = "ERROR usage: EXISTS key\n" := by decide
    rw [hs]
    simp [handle_tokens, hne1, hne2, hne3]

theorem malformed_command_is_error_witness :
    ∃ reason, handle_tokens demo_full 7 ("SET" :: ["k"])
      = Handled.sent demo_full ("ERROR " ++ reason) :=
  malformed_command_is_error demo_full 7 "SET" ["k"] (Or.inr (Or.inl ⟨rfl, by decide⟩))

/-- C16, on the code: for every store and clock reading, the four-token command
`SET k v abc` makes `std::stoi` throw `invalid_argument`; the handler sends no
response and set is not called. -/
theorem set_non_numeric_ttl_throws (s : KeyValueStore) (now : TimePoint) :
    parse "SET k v abc\n" = ["SET", "k", "v", "abc"]
      ∧ handle_client s now "SET k v abc\n" = Handled.threw StoiError.invalid_argument := by
  have hp : parse "SET k v abc\n" = ["SET", "k", "v", "abc"] := by decide
  have hst : stoi "abc" = StoiResult.throws StoiError.invalid_argument := by decide
  refine ⟨hp, ?_⟩
  simp [handle_client, hp, handle_tokens, hst]

/-- C20, as the claim states it, fails: after the line `SET k (nil)` the key `k`
is stored and not expired, and the response to `GET k` is `(nil)` and a newline,
the response of an absent key. -/
theorem get_of_nil_value_looks_absent :
    handle_client (KeyValueStore.mk_empty 10) 0 "SET k (nil)\n" = Handled.sent demo_nil "OK\n"
      ∧ «exists» demo_nil 1 "k" = (demo_nil, true)
      ∧ handle_client demo_nil 1 "GET k\n" = Handled.sent demo_nil "(nil)\n" := by
  decide

/-- C20, amended (the GET response): on a well-formed store the handler answers
`GET key`, and the response is `(nil)` and a newline exactly when the key is not
stored, or its entry has an `expires_at` earlier than the clock reading, or the
stored value is the text `(nil)`; a stored key that is not expired and whose value
is not the text `(nil)` gets its value and a newline, which differs from the
response of an absent key. -/
theorem get_response_nil_iff (s : KeyValueStore) (hwf : WF s) (now : TimePoint)
    (key : String) :
    ∃ s1 r, handle_tokens s now ["GET", key] = Handled.sent s1 r
      ∧ (r = "(nil)\n" ↔
          (find s.data key = none
            ∨ ∃ e, find s.data key = some e
                ∧ ((∃ t, e.expires_at = some t ∧ t < now) ∨ e.value = "(nil)")))
      ∧ (∀ e, find s.data key = some e → (∀ t, e.expires_at = some t → ¬ t < now) →
          e.value ≠ "(nil)" → r = e.value ++ "\n" ∧ r ≠ "(nil)\n") := by
  have hne : ¬ ("GET" = "SET") := by decide
  have hnil : ("(nil)\n" : String) = "(nil)" ++ "\n" := by decide
  cases hf : find s.data key with
  | none =>
    refine ⟨s, "(nil)\n", ?_, ?_, ?_⟩
    · have hg : get s now key = some (s, none) := by
        unfold get
        rw [hf]
      simp [handle_tokens, hne, hg]
    · simp
    · intro e he
      cases he
  | some e =>
    by_cases hx : is_expired e now = true
    · refine ⟨s, "(nil)\n", ?_, ?_, ?_⟩
      · have hg := get_miss_expired hf hx
        simp [handle_tokens, hne, hg]
      · simp only [true_iff]
        exact Or.inr ⟨e, rfl, Or.inl ((is_expired_iff e now).mp hx)⟩
      · intro e1 he1 hnx
        cases he1
        exact absurd hx (by rw [(is_expired_false_iff e now).mpr hnx]; simp)
    · have hx2 : is_expired e now = false := by simpa using hx
      obtain ⟨s1, hg⟩ := get_hit hwf hf hx2
      refine ⟨s1, e.value ++ "\n", ?_, ?_, ?_⟩
      · simp [handle_tokens, hne, hg]
      · rw [hnil, append_newline_eq_iff]
        constructor
        · intro hv
          exact Or.inr ⟨e, rfl, Or.inr hv⟩
        · rintro (hc | ⟨e1, he1, hc | hc⟩)
          · cases hc
          · cases he1
            exact absurd ((is_expired_iff e now).mpr hc) hx
          · cases he1
            exact hc
      · intro e1 he1 _ hv
        cases he1
        refine ⟨rfl, ?_⟩
        rw [hnil, Ne, append_newline_eq_iff]
        exact hv

theorem get_response_nil_iff_witness :
    ∃ s1 r, handle_tokens demo_full 2 ["GET", "a"] = Handled.sent s1 r
      ∧ (r = "(nil)\n" ↔
          (find demo_full.data "a" = none
            ∨ ∃ e, find demo_full.data "a" = some e
                ∧ ((∃ t, e.expires_at = some t ∧ t < (2 : TimePoint)) ∨ e.value = "(nil)")))
      ∧ (∀ e, find demo_full.data "a" = some e →
          (∀ t, e.expires_at = some t → ¬ t < (2 : TimePoint)) →
          e.value ≠ "(nil)" → r = e.value ++ "\n" ∧ r ≠ "(nil)\n") :=
  get_response_nil_iff demo_full WF_demo_full 2 "a"

end MiniRedis
